import Mathlib

/-!
Shallow embedding of the RETROICOR phase-reconstruction pipeline of
`src/retroicor/lib_retroicor.py` and `src/retroicor/retroicorLauren.py`.

Conventions used throughout this development:

* Floating-point arithmetic is modelled by exact rational arithmetic (`ℚ`).
* A value that Python would compute as `a + b·π` (phases are rational
  multiples of π, except for the literal `-1.0` placeholder used by
  `determineCardiacPhases`) is represented by the pair `PhaseVal a b`;
  a respiratory phase, which is always a plain rational multiple of π,
  is represented by its coefficient `q : ℚ` standing for `q·π`.
* A Python function that can raise an exception (IndexError, ValueError,
  ZeroDivisionError, NameError, KeyError, OverflowError from `round(inf)`)
  is modelled as returning `Option`; `none` covers every raising path as
  well as the explicit `return []` failure returns, since all callers in
  the repository treat both identically (no output is produced).
* `matplotlib` plotting calls are pure side effects on files and are not
  modelled.
-/

namespace Retroicor

/-- Python's built-in `round` on an exact value: round half to even
(banker's rounding), as used by `round(...)` in `lib_retroicor.py`. -/
def pythonRound (q : ℚ) : ℤ :=
  let f := ⌊q⌋
  let r := q - (f : ℚ)
  if r < 1/2 then f
  else if 1/2 < r then f + 1
  else if f % 2 = 0 then f else f + 1

/-- Python's `%` operator on exact numeric values (`a % b = a - b*⌊a/b⌋`,
result has the sign of `b`); for `b = 0` Python raises, but every use in
this development is guarded by `0 < b`. -/
def pymod (a b : ℚ) : ℚ := a - b * (⌊a / b⌋ : ℚ)

/-- Python list indexing `l[i]`: a negative index wraps once from the end,
an index out of `[-len, len)` raises IndexError (modelled as `none`). -/
def pyGet {α : Type} (l : List α) (i : ℤ) : Option α :=
  if 0 ≤ i then l.get? i.toNat
  else if -(l.length : ℤ) ≤ i then l.get? ((l.length : ℤ) + i).toNat
  else none

/-- Python's built-in `min` over a list; `min([])` raises ValueError. -/
def listMin : List ℚ → Option ℚ
  | [] => none
  | x :: xs => some (xs.foldl min x)

/-- Python's built-in `max` over a list; `max([])` raises ValueError. -/
def listMax : List ℚ → Option ℚ
  | [] => none
  | x :: xs => some (xs.foldl max x)

/-- A phase value `a + b·π` (`a b : ℚ`).  Cardiac phases mix the literal
placeholder `-1.0` (that is `⟨-1, 0⟩`) with rational multiples of π, so
they live in the ring ℚ + ℚ·π represented by such pairs. -/
structure PhaseVal where
  a : ℚ
  b : ℚ
deriving DecidableEq, Repr

/-- The real number denoted by a `PhaseVal`. -/
noncomputable def PhaseVal.toReal (v : PhaseVal) : ℝ := (v.a : ℝ) + (v.b : ℝ) * Real.pi

/-! ### `determineCardiacPhases` (lib_retroicor.py, lines 439-512)

The function builds the phase list in four steps:
1. `peaks[0]` placeholder entries `-1.0`;
2. for every inter-peak interval `[peaks[i], peaks[i+1])` the linear ramp
   `2π·(j-start)/period`;
3. the head fix-up loop copying `phases[iIndex]` (starting at
   `iIndex = peaks[1]-peaks[0]`) over the placeholders;
4. the tail loop appending `phases[iIndex]` (starting at
   `iIndex = peaks[-2]+1`) for `fullLength - peaks[-1]` steps;
finally π is subtracted from every entry. -/

/-- The phase ramp of one inter-peak interval `[s, e)`:
`2π·d/(e-s)` for `d = 0 … e-s-1` (an empty list when `e ≤ s`, exactly as
Python's `range(start, end)` is empty then). -/
def cardiacIntervalBlock (s e : ℕ) : List PhaseVal :=
  (List.range (e - s)).map (fun (d : ℕ) => ⟨0, 2 * (d : ℚ) / ((e : ℚ) - (s : ℚ))⟩)

/-- Concatenated ramps of all consecutive inter-peak intervals
(the `for i in range(0, numIntervals)` loop). -/
def cardiacIntervals : List ℕ → List PhaseVal
  | a :: b :: rest => cardiacIntervalBlock a b ++ cardiacIntervals (b :: rest)
  | _ => []

/-- The head fix-up loop: `n` iterations of
`phases[oIdx] = phases[iIdx]; oIdx += 1; iIdx += 1` (reads use Python
indexing, so an out-of-range read raises). -/
def cardiacHeadFix : List PhaseVal → ℤ → ℕ → ℕ → Option (List PhaseVal)
  | phases, _, _, 0 => some phases
  | phases, iIdx, oIdx, n + 1 => do
    let v ← pyGet phases iIdx
    cardiacHeadFix (phases.set oIdx v) (iIdx + 1) (oIdx + 1) n

/-- The tail loop: `n` iterations of
`phases.append(phases[iIdx]); iIdx += 1`. -/
def cardiacTailFix : List PhaseVal → ℤ → ℕ → Option (List PhaseVal)
  | phases, _, 0 => some phases
  | phases, iIdx, n + 1 => do
    let v ← pyGet phases iIdx
    cardiacTailFix (phases ++ [v]) (iIdx + 1) n

/-- `determineCardiacPhases` before the final `-π` shift. -/
def determineCardiacPhasesPre (peaks : List ℕ) (fullLength : ℕ) :
    Option (List PhaseVal) := do
  let p0 ← peaks.get? 0
  let p1 ← peaks.get? 1
  let pm1 ← pyGet peaks (-1)
  let pm2 ← pyGet peaks (-2)
  let base := List.replicate p0 (⟨-1, 0⟩ : PhaseVal) ++ cardiacIntervals peaks
  let afterHead ← cardiacHeadFix base ((p1 : ℤ) - (p0 : ℤ)) 0 p0
  cardiacTailFix afterHead ((pm2 : ℤ) + 1) (fullLength - pm1)

/-- `determineCardiacPhases`: the pre-shift list with π subtracted from
every entry (`phases = [x - math.pi for x in phases]`). -/
def determineCardiacPhases (peaks : List ℕ) (fullLength : ℕ) :
    Option (List PhaseVal) :=
  (determineCardiacPhasesPre peaks fullLength).map
    (List.map (fun v => ⟨v.a, v.b - 1⟩))

theorem cardiacHeadFix_length : ∀ (n : ℕ) (phases : List PhaseVal) (iIdx : ℤ) (oIdx : ℕ)
    (l : List PhaseVal), cardiacHeadFix phases iIdx oIdx n = some l → l.length = phases.length
  | 0, phases, _, _, l, h => by
      simp only [cardiacHeadFix] at h
      cases h
      rfl
  | n + 1, phases, iIdx, oIdx, l, h => by
      simp only [cardiacHeadFix, Option.bind_eq_bind, Option.bind_eq_some] at h
      obtain ⟨v, _, hrec⟩ := h
      have := cardiacHeadFix_length n _ _ _ _ hrec
      simpa using this

theorem cardiacTailFix_spec : ∀ (n : ℕ) (phases : List PhaseVal) (iIdx : ℤ)
    (l : List PhaseVal), 0 ≤ iIdx → cardiacTailFix phases iIdx n = some l →
    (∀ j, j < phases.length → l.get? j = phases.get? j) ∧
    l.length = phases.length + n ∧
    (∀ k, k < n → l.get? (phases.length + k) = l.get? (iIdx.toNat + k))
  | 0, phases, iIdx, l, _, h => by
      simp only [cardiacTailFix] at h
      cases h
      exact ⟨fun j _ => rfl, by omega, fun k hk => absurd hk (by omega)⟩
  | n + 1, phases, iIdx, l, hnn, h => by
      simp only [cardiacTailFix, Option.bind_eq_bind, Option.bind_eq_some] at h
      obtain ⟨v, hv, hrec⟩ := h
      have hvget : phases.get? iIdx.toNat = some v := by
        simpa [pyGet, hnn] using hv
      have hlt : iIdx.toNat < phases.length := List.get?_eq_some.mp hvget |>.1
      obtain ⟨H1, H2, H3⟩ :=
        cardiacTailFix_spec n (phases ++ [v]) (iIdx + 1) l (by omega) hrec
      have hlen : (phases ++ [v]).length = phases.length + 1 := by simp
      refine ⟨?_, ?_, ?_⟩
      · intro j hj
        rw [H1 j (by simp; omega), List.get?_append hj]
      · omega
      · intro k hk
        match k with
        | 0 =>
            have e1 : l.get? (phases.length + 0) = some v := by
              rw [show phases.length + 0 = phases.length by rfl,
                H1 phases.length (by simp), List.get?_concat_length]
            have e2 : l.get? (iIdx.toNat + 0) = some v := by
              rw [show iIdx.toNat + 0 = iIdx.toNat by rfl,
                H1 iIdx.toNat (by simp; omega), List.get?_append hlt, hvget]
            rw [e1, e2]
        | k + 1 =>
            have := H3 k (by omega)
            have htn : (iIdx + 1).toNat = iIdx.toNat + 1 := by omega
            rw [hlen, htn] at this
            rw [show phases.length + (k + 1) = phases.length + 1 + k by omega,
              show iIdx.toNat + (k + 1) = iIdx.toNat + 1 + k by omega]
            exact this

theorem cardiacIntervalBlock_length (s e : ℕ) :
    (cardiacIntervalBlock s e).length = e - s := by
  simp only [cardiacIntervalBlock, List.length_map, List.length_range]

theorem chain_le_getLast? : ∀ (rest : List ℕ) (b x : ℕ),
    List.Chain' (· ≤ ·) (b :: rest) → (b :: rest).getLast? = some x → b ≤ x
  | [], b, x, _, hx => by simp at hx; omega
  | c :: rs, b, x, hch, hx => by
      have hbc : b ≤ c := (List.chain'_cons.mp hch).1
      have := chain_le_getLast? rs c x (List.chain'_cons.mp hch).2 (by simpa using hx)
      omega

theorem cardiacIntervals_length : ∀ (rest : List ℕ) (a x : ℕ),
    List.Chain' (· ≤ ·) (a :: rest) → (a :: rest).getLast? = some x →
    (cardiacIntervals (a :: rest)).length = x - a
  | [], a, x, _, hx => by simp at hx; simp [cardiacIntervals, hx]
  | b :: rs, a, x, hch, hx => by
      have hab : a ≤ b := (List.chain'_cons.mp hch).1
      have hch' := (List.chain'_cons.mp hch).2
      have hx' : (b :: rs).getLast? = some x := by simpa using hx
      have hbx : b ≤ x := chain_le_getLast? rs b x hch' hx'
      have ih := cardiacIntervals_length rs b x hch' hx'
      show (cardiacIntervalBlock a b ++ cardiacIntervals (b :: rs)).length = x - a
      rw [List.length_append, ih, cardiacIntervalBlock_length]
      omega

theorem pyGet_neg_one {α : Type} (l : List α) (h : 1 ≤ l.length) :
    pyGet l (-1) = l.getLast? := by
  have h1 : ¬ ((0 : ℤ) ≤ -1) := by omega
  have h2 : -((l.length : ℕ) : ℤ) ≤ -1 := by omega
  simp only [pyGet, h1, if_false, h2, if_true]
  rw [List.getLast?_eq_get?]
  congr 1
  omega

theorem pyGet_neg_two {α : Type} (l : List α) (h : 2 ≤ l.length) :
    pyGet l (-2) = l.get? (l.length - 2) := by
  have h1 : ¬ ((0 : ℤ) ≤ -2) := by omega
  have h2 : -((l.length : ℕ) : ℤ) ≤ -2 := by omega
  simp only [pyGet, h1, if_false, h2, if_true]
  congr 1
  omega

/-- Output of `determineCardiacPhases [2, 5] 7`, written out explicitly
(coefficients of π after the final `-π` shift). -/
def cardiacExample257 : List PhaseVal :=
  [⟨0, -1/3⟩, ⟨0, 1/3⟩, ⟨0, -1⟩, ⟨0, -1/3⟩, ⟨0, 1/3⟩, ⟨0, -1/3⟩, ⟨0, 1/3⟩]

/-- C2, counterexample.  For `peaks = [2, 5]` and `fullLength = 7` the claim
asserts that the phases at positions `5, 6` (after the last peak) equal the
phases at positions `peaks[-2] = 2, 3`.  The code instead copies from
position `peaks[-2] + 1 = 3` onwards: the value at position 5 is the value
of position 3, not of position 2, and the two differ. -/
theorem c2_counterexample :
    determineCardiacPhases [2, 5] 7 = some cardiacExample257 ∧
    cardiacExample257.get? 5 ≠ cardiacExample257.get? 2 ∧
    cardiacExample257.get? 5 = cardiacExample257.get? 3 := by
  refine ⟨?_, ?_, ?_⟩
  · norm_num [determineCardiacPhases, determineCardiacPhasesPre, cardiacHeadFix,
      cardiacTailFix, cardiacIntervals, cardiacIntervalBlock, pyGet,
      List.range_succ, cardiacExample257, PhaseVal.mk.injEq,
      List.replicate_succ, List.getElem_append, List.set]
    norm_num [show Int.toNat 3 = 3 from rfl, show Int.toNat 4 = 4 from rfl]
  · norm_num [cardiacExample257, PhaseVal.mk.injEq]
  · norm_num [cardiacExample257]

/-- C2, amended.  After the last peak, `determineCardiacPhases` reuses the
phase pattern of the last completed cycle starting one sample *after* the
cycle start: for every `k < fullLength - peaks[-1]` the output value at
position `peaks[-1] + k` equals the output value at position
`peaks[-2] + 1 + k` (whenever the function returns at all). -/
theorem c2_amended (peaks : List ℕ) (fullLength : ℕ) (pm1 pm2 : ℕ)
    (l : List PhaseVal)
    (hlen2 : 2 ≤ peaks.length)
    (hchain : List.Chain' (· < ·) peaks)
    (hpm1 : pyGet peaks (-1) = some pm1)
    (hpm2 : pyGet peaks (-2) = some pm2)
    (hres : determineCardiacPhases peaks fullLength = some l) :
    ∀ k, k < fullLength - pm1 →
      l.get? (pm1 + k) = l.get? (pm2 + 1 + k) := by
  intro k hk
  -- unpack the do-chain of `determineCardiacPhasesPre`
  obtain ⟨lp, hlp, hmap⟩ : ∃ lp, determineCardiacPhasesPre peaks fullLength = some lp ∧
      l = lp.map (fun v => ⟨v.a, v.b - 1⟩) := by
    simp only [determineCardiacPhases, Option.map_eq_some'] at hres
    obtain ⟨lp, h1, h2⟩ := hres
    exact ⟨lp, h1, h2.symm⟩
  simp only [determineCardiacPhasesPre, Option.bind_eq_bind, Option.bind_eq_some] at hlp
  obtain ⟨p0, hp0, p1, hp1, pm1', hpm1', pm2', hpm2', afterHead, hHead, hTail⟩ := hlp
  rw [hpm1] at hpm1'
  rw [hpm2] at hpm2'
  cases hpm1'
  cases hpm2'
  -- the length of the list entering the tail loop is peaks[-1]
  have hbaselen : (List.replicate p0 (⟨-1, 0⟩ : PhaseVal) ++ cardiacIntervals peaks).length
      = pm1 := by
    obtain ⟨a, rest, rfl⟩ : ∃ a rest, peaks = a :: rest := by
      cases peaks with
      | nil => simp at hp0
      | cons a rest => exact ⟨a, rest, rfl⟩
    have hlast : (a :: rest).getLast? = some pm1 := by
      rw [pyGet_neg_one _ (by simp)] at hpm1
      exact hpm1
    have ha : a = p0 := by simpa using hp0
    subst ha
    have hchle : List.Chain' (· ≤ ·) (a :: rest) :=
      hchain.imp (fun x y h => Nat.le_of_lt h)
    have hha : a ≤ pm1 := chain_le_getLast? rest a pm1 hchle hlast
    rw [List.length_append, List.length_replicate,
      cardiacIntervals_length rest a pm1 hchle hlast]
    omega
  have hHeadLen : afterHead.length = pm1 := by
    rw [cardiacHeadFix_length p0 _ _ _ _ hHead, hbaselen]
  obtain ⟨-, -, H3⟩ := cardiacTailFix_spec (fullLength - pm1) afterHead
    ((pm2 : ℤ) + 1) lp (by omega) hTail
  have := H3 k hk
  rw [hHeadLen] at this
  have htn : ((pm2 : ℤ) + 1).toNat = pm2 + 1 := by omega
  rw [htn] at this
  subst hmap
  simp only [List.get?_map]
  rw [this]

/-- C2, witness for the amended theorem at `peaks = [2, 5]`,
`fullLength = 7`, `k = 0`. -/
theorem c2_amended_witness :
    cardiacExample257.get? (5 + 0) = cardiacExample257.get? (2 + 1 + 0) :=
  c2_amended [2, 5] 7 5 2 cardiacExample257 (by decide)
    (by simp [List.chain'_cons]) (by decide) (by decide)
    (by norm_num [determineCardiacPhases, determineCardiacPhasesPre, cardiacHeadFix,
          cardiacTailFix, cardiacIntervals, cardiacIntervalBlock, pyGet,
          List.range_succ, cardiacExample257, PhaseVal.mk.injEq,
          List.replicate_succ, List.getElem_append, List.set]
        norm_num [show Int.toNat 3 = 3 from rfl, show Int.toNat 4 = 4 from rfl])
    0 (by decide)

/-- An interval-ramp value: exactly `b·π` with `0 ≤ b < 2`.  Every phase
the inter-peak loop of `determineCardiacPhases` writes is of this form. -/
def CardGood (v : PhaseVal) : Prop := v.a = 0 ∧ 0 ≤ v.b ∧ v.b < 2

theorem cardiacIntervalBlock_good (s e : ℕ) (v : PhaseVal)
    (hv : v ∈ cardiacIntervalBlock s e) : CardGood v := by
  simp only [cardiacIntervalBlock, List.mem_map, List.mem_range] at hv
  obtain ⟨d, hd, rfl⟩ := hv
  have hse : s < e := by omega
  have hcast : ((e : ℚ) - (s : ℚ)) = ((e - s : ℕ) : ℚ) := by
    push_cast [Nat.cast_sub (le_of_lt hse)]
    ring
  have hpos : (0 : ℚ) < (e : ℚ) - (s : ℚ) := by
    rw [hcast]
    exact_mod_cast Nat.sub_pos_of_lt hse
  refine ⟨rfl, ?_, ?_⟩
  · positivity
  · rw [div_lt_iff hpos, hcast]
    have : (d : ℚ) < ((e - s : ℕ) : ℚ) := by exact_mod_cast hd
    nlinarith

theorem cardiacIntervals_good : ∀ (peaks : List ℕ) (v : PhaseVal),
    v ∈ cardiacIntervals peaks → CardGood v
  | [], v, hv => by simp [cardiacIntervals] at hv
  | [_], v, hv => by simp [cardiacIntervals] at hv
  | a :: b :: rest, v, hv => by
      rcases List.mem_append.mp hv with h | h
      · exact cardiacIntervalBlock_good a b v h
      · exact cardiacIntervals_good (b :: rest) v h

theorem chain_le_get? : ∀ (rest : List ℕ) (a : ℕ) (i s : ℕ),
    List.Chain' (· ≤ ·) (a :: rest) → (a :: rest).get? i = some s → a ≤ s
  | _, a, 0, s, _, hs => by simp at hs; omega
  | [], _, _ + 1, _, _, hs => by simp at hs
  | b :: rs, a, i + 1, s, hch, hs => by
      have hab : a ≤ b := (List.chain'_cons.mp hch).1
      have := chain_le_get? rs b i s (List.chain'_cons.mp hch).2 (by simpa using hs)
      omega

theorem chain_get?_le_getLast? : ∀ (rest : List ℕ) (a : ℕ) (i s x : ℕ),
    List.Chain' (· ≤ ·) (a :: rest) → (a :: rest).get? i = some s →
    (a :: rest).getLast? = some x → s ≤ x
  | rest, a, 0, s, x, hch, hs, hx => by
      have ha : a = s := by simpa using hs
      exact ha ▸ chain_le_getLast? rest a x hch hx
  | [], _, _ + 1, _, _, _, hs, _ => by simp at hs
  | b :: rs, a, i + 1, s, x, hch, hs, hx =>
      chain_get?_le_getLast? rs b i s x (List.chain'_cons.mp hch).2
        (by simpa using hs) (by simpa using hx)

theorem cardiacIntervals_get? : ∀ (rest : List ℕ) (a : ℕ) (i s e j : ℕ),
    List.Chain' (· ≤ ·) (a :: rest) →
    (a :: rest).get? i = some s → (a :: rest).get? (i + 1) = some e →
    s ≤ j → j < e →
    (cardiacIntervals (a :: rest)).get? (j - a) =
      some ⟨0, 2 * ((j : ℚ) - (s : ℚ)) / ((e : ℚ) - (s : ℚ))⟩
  | [], _, i, _, _, _, _, _, he, _, _ => by
      rcases i with _ | i <;> simp at he
  | b :: rs, a, 0, s, e, j, hch, hs, he, hsj, hje => by
      have hsa : s = a := by simpa using hs.symm
      have heb : e = b := by simpa using he.symm
      subst hsa; subst heb
      have hab : s < e := by omega
      show (cardiacIntervalBlock s e ++ cardiacIntervals (e :: rs)).get? (j - s) = _
      rw [List.get?_append (by rw [cardiacIntervalBlock_length]; omega)]
      rw [cardiacIntervalBlock, List.get?_map]
      rw [List.get?_range (by omega)]
      simp only [Option.map_some']
      congr 2
      push_cast [Nat.cast_sub hsj]
      ring
  | b :: rs, a, i + 1, s, e, j, hch, hs, he, hsj, hje => by
      have hab : a ≤ b := (List.chain'_cons.mp hch).1
      have hch' := (List.chain'_cons.mp hch).2
      have hs' : (b :: rs).get? i = some s := by simpa using hs
      have he' : (b :: rs).get? (i + 1) = some e := by simpa using he
      have hbs : b ≤ s := chain_le_get? rs b i s hch' hs'
      have ih := cardiacIntervals_get? rs b i s e j hch' hs' he' hsj hje
      show (cardiacIntervalBlock a b ++ cardiacIntervals (b :: rs)).get? (j - a) = _
      rw [List.get?_append_right (by rw [cardiacIntervalBlock_length]; omega)]
      rw [cardiacIntervalBlock_length,
        show j - a - (b - a) = j - b by omega]
      exact ih

theorem cardiacHeadFix_spec : ∀ (n : ℕ) (phases : List PhaseVal) (oIdx off bound : ℕ),
    bound ≤ off →
    oIdx + n ≤ bound →
    oIdx + n + off ≤ phases.length →
    (∀ j v, bound ≤ j → phases.get? j = some v → CardGood v) →
    ∃ l, cardiacHeadFix phases ((oIdx : ℤ) + (off : ℤ)) oIdx n = some l ∧
      l.length = phases.length ∧
      (∀ j, bound ≤ j → l.get? j = phases.get? j) ∧
      (∀ j, oIdx ≤ j → j < oIdx + n → ∃ v, l.get? j = some v ∧ CardGood v) ∧
      (∀ j, j < oIdx → l.get? j = phases.get? j)
  | 0, phases, oIdx, off, bound, _, _, _, _ => by
      exact ⟨phases, rfl, rfl, fun _ _ => rfl, fun j h1 h2 => absurd h2 (by omega),
        fun _ _ => rfl⟩
  | n + 1, phases, oIdx, off, bound, hboff, hbound, hlen, hgood => by
      have hofflt : oIdx + off < phases.length := by omega
      obtain ⟨v, hv⟩ : ∃ v, phases.get? (oIdx + off) = some v :=
        ⟨_, List.get?_eq_get (by omega)⟩
      have hvgood : CardGood v := hgood _ v (by omega) hv
      have hstep : cardiacHeadFix phases ((oIdx : ℤ) + (off : ℤ)) oIdx (n + 1) =
          cardiacHeadFix (phases.set oIdx v) ((oIdx : ℤ) + (off : ℤ) + 1) (oIdx + 1) n := by
        have hpg : pyGet phases ((oIdx : ℤ) + (off : ℤ)) = some v := by
          rw [pyGet, if_pos (by omega)]
          rw [show ((oIdx : ℤ) + (off : ℤ)).toNat = oIdx + off by omega]
          exact hv
        simp only [cardiacHeadFix, hpg, Option.bind_eq_bind, Option.some_bind]
      have hcast : ((oIdx : ℤ) + (off : ℤ) + 1) = (((oIdx + 1 : ℕ)) : ℤ) + (off : ℤ) := by
        push_cast; ring
      rw [hstep, hcast]
      have hsetlen : (phases.set oIdx v).length = phases.length := by simp
      obtain ⟨l, hl, hllen, hregion, hgoodpart, hbelow⟩ :=
        cardiacHeadFix_spec n (phases.set oIdx v) (oIdx + 1) off bound hboff
          (by omega) (by omega)
          (fun j w hj hw => hgood j w hj (by
            rwa [List.get?_set_ne _ _ (by omega)] at hw))
      refine ⟨l, hl, by omega, ?_, ?_, ?_⟩
      · intro j hj
        rw [hregion j hj, List.get?_set_ne _ _ (by omega)]
      · intro j hj1 hj2
        by_cases hje : j = oIdx
        · refine ⟨v, ?_, hvgood⟩
          rw [hbelow j (by omega), hje]
          exact List.get?_set_eq_of_lt v (by omega)
        · exact hgoodpart j (by omega) (by omega)
      · intro j hj
        rw [hbelow j (by omega), List.get?_set_ne _ _ (by omega)]

theorem cardiacTailFix_good : ∀ (n : ℕ) (phases : List PhaseVal) (iIdx : ℕ),
    (n = 0 ∨ iIdx < phases.length) →
    (∀ j v, iIdx ≤ j → phases.get? j = some v → CardGood v) →
    ∃ l, cardiacTailFix phases (iIdx : ℤ) n = some l ∧
      l.length = phases.length + n ∧
      (∀ j, j < phases.length → l.get? j = phases.get? j) ∧
      (∀ j v, iIdx ≤ j → l.get? j = some v → CardGood v)
  | 0, phases, iIdx, _, hgood => by
      exact ⟨phases, rfl, by omega, fun _ _ => rfl, hgood⟩
  | n + 1, phases, iIdx, hcase, hgood => by
      have hlt : iIdx < phases.length := by
        rcases hcase with h | h
        · omega
        · exact h
      obtain ⟨v, hv⟩ : ∃ v, phases.get? iIdx = some v :=
        ⟨_, List.get?_eq_get hlt⟩
      have hvgood : CardGood v := hgood _ v le_rfl hv
      have hstep : cardiacTailFix phases (iIdx : ℤ) (n + 1) =
          cardiacTailFix (phases ++ [v]) ((iIdx : ℤ) + 1) n := by
        have hpg : pyGet phases (iIdx : ℤ) = some v := by
          rw [pyGet, if_pos (by omega)]
          rw [show ((iIdx : ℤ)).toNat = iIdx by omega]
          exact hv
        simp only [cardiacTailFix, hpg, Option.bind_eq_bind, Option.some_bind]
      rw [hstep, show ((iIdx : ℤ) + 1) = (((iIdx + 1 : ℕ)) : ℤ) by push_cast; ring]
      obtain ⟨l, hl, hllen, hpre, hgoodpart⟩ :=
        cardiacTailFix_good n (phases ++ [v]) (iIdx + 1)
          (by right; simp; omega)
          (fun j w hj hw => by
            rcases Nat.lt_or_ge j phases.length with hcase2 | hcase2
            · exact hgood j w (by omega) (by rwa [List.get?_append hcase2] at hw)
            · have hj2 : j = phases.length := by
                by_contra hne
                have : (phases ++ [v]).get? j = none := by
                  rw [List.get?_eq_none]
                  simp
                  omega
                rw [this] at hw
                exact Option.noConfusion hw
              subst hj2
              rw [List.get?_concat_length] at hw
              cases hw
              exact hvgood)
      refine ⟨l, hl, by simp at hllen; omega, ?_, ?_⟩
      · intro j hj
        rw [hpre j (by simp; omega), List.get?_append hj]
      · intro j w hj hw
        rcases Nat.lt_or_ge j phases.length with hcase2 | hcase2
        · exact hgood j w hj (by rwa [hpre j (by simp; omega), List.get?_append hcase2] at hw)
        · rcases Nat.lt_or_ge j (phases.length + 1) with hcase3 | hcase3
          · have hj2 : j = phases.length := by omega
            rw [hj2, hpre phases.length (by simp), List.get?_concat_length] at hw
            cases hw
            exact hvgood
          · exact hgoodpart j w (by omega) hw

theorem chain_lt_of_get?_succ (l : List ℕ) (i s e : ℕ)
    (hch : List.Chain' (· < ·) l)
    (hs : l.get? i = some s) (he : l.get? (i + 1) = some e) : s < e := by
  have hi1 : i + 1 < l.length := (List.get?_eq_some.mp he).1
  have hi : i < l.length := by omega
  have hrel := List.chain'_iff_get.mp hch i (by omega)
  rw [List.get?_eq_get hi] at hs
  rw [List.get?_eq_get hi1] at he
  have hs' := Option.some.inj hs
  have he' := Option.some.inj he
  omega

theorem cardGood_range (v : PhaseVal) (h : CardGood v) :
    -Real.pi ≤ ((v.a : ℝ)) + ((v.b : ℝ) - 1) * Real.pi ∧
    ((v.a : ℝ)) + ((v.b : ℝ) - 1) * Real.pi < Real.pi := by
  obtain ⟨ha, hb0, hb2⟩ := h
  have hb0' : (0 : ℝ) ≤ (v.b : ℝ) := by exact_mod_cast hb0
  have hb2' : (v.b : ℝ) < 2 := by exact_mod_cast hb2
  have hpi := Real.pi_pos
  rw [ha]
  constructor
  · push_cast
    nlinarith
  · push_cast
    nlinarith

/-- Output of `determineCardiacPhases [5, 7] 8`, written out explicitly. -/
def cardiacExample578 : List PhaseVal :=
  [⟨-1, -1⟩, ⟨-1, -1⟩, ⟨-1, -1⟩, ⟨0, -1⟩, ⟨0, 0⟩, ⟨0, -1⟩, ⟨0, 0⟩, ⟨0, 0⟩]

/-- C4, counterexample.  For `peaks = [5, 7]`, `fullLength = 8` (strictly
increasing, both inside `[0, 8)`), the head fix-up loop starts copying at
`iIndex = peaks[1] - peaks[0] = 2 < peaks[0]`, so it copies the `-1.0`
placeholders onto themselves: the output contains the value `-1 - π`,
which lies outside `[-π, π)`. -/
theorem c4_counterexample :
    determineCardiacPhases [5, 7] 8 = some cardiacExample578 ∧
    (⟨-1, -1⟩ : PhaseVal) ∈ cardiacExample578 ∧
    ¬ (-Real.pi ≤ ((-1 : ℚ) : ℝ) + ((-1 : ℚ) : ℝ) * Real.pi) := by
  refine ⟨?_, by norm_num [cardiacExample578], ?_⟩
  · norm_num [determineCardiacPhases, determineCardiacPhasesPre, cardiacHeadFix,
      cardiacTailFix, cardiacIntervals, cardiacIntervalBlock, pyGet,
      List.range_succ, cardiacExample578, PhaseVal.mk.injEq,
      List.replicate_succ, List.getElem_append, List.set]
    norm_num [show Int.toNat 2 = 2 from rfl, show Int.toNat 3 = 3 from rfl,
      show Int.toNat 4 = 4 from rfl, show Int.toNat 5 = 5 from rfl,
      show Int.toNat 6 = 6 from rfl]
  · push_cast
    have := Real.pi_pos
    intro h
    linarith

/-- C4, amended.  Under the claim's hypotheses (≥ 2 strictly increasing
peaks, all below `fullLength`) *and* two extra hypotheses the
counterexample forces — the first inter-peak period is at least `peaks[0]`
(otherwise `-1.0` placeholders leak into the output) and the last period
is at least 2 (otherwise the tail loop raises IndexError) —
`determineCardiacPhases` succeeds, returns one value per raw sample,
every value lies in `[-π, π)`, and the pre-shift values are non-decreasing
inside every inter-peak interval. -/
theorem c4_amended (peaks : List ℕ) (fullLength : ℕ) (p0 p1 pm1 pm2 : ℕ)
    (hp0 : peaks.get? 0 = some p0) (hp1 : peaks.get? 1 = some p1)
    (hpm1 : pyGet peaks (-1) = some pm1) (hpm2 : pyGet peaks (-2) = some pm2)
    (hchain : List.Chain' (· < ·) peaks)
    (hfull : ∀ p ∈ peaks, p < fullLength)
    (hhead : 2 * p0 ≤ p1)
    (htail : pm2 + 2 ≤ pm1) :
    ∃ lp l, determineCardiacPhasesPre peaks fullLength = some lp ∧
      determineCardiacPhases peaks fullLength = some l ∧
      l.length = fullLength ∧
      (∀ v ∈ l, -Real.pi ≤ (v.a : ℝ) + (v.b : ℝ) * Real.pi ∧
        (v.a : ℝ) + (v.b : ℝ) * Real.pi < Real.pi) ∧
      (∀ i s e j k, peaks.get? i = some s → peaks.get? (i + 1) = some e →
        s ≤ j → j ≤ k → k < e →
        ∀ vj vk, lp.get? j = some vj → lp.get? k = some vk →
          (vj.a : ℝ) + (vj.b : ℝ) * Real.pi ≤ (vk.a : ℝ) + (vk.b : ℝ) * Real.pi) := by
  -- decompose the peak list
  obtain ⟨a, rest, rfl⟩ : ∃ a rest, peaks = a :: rest := by
    cases peaks with
    | nil => simp at hp0
    | cons a rest => exact ⟨a, rest, rfl⟩
  have ha : a = p0 := by simpa using hp0
  subst ha
  have hchle : List.Chain' (· ≤ ·) (a :: rest) :=
    hchain.imp (fun x y h => Nat.le_of_lt h)
  have hlast : (a :: rest).getLast? = some pm1 := by
    rw [pyGet_neg_one _ (by simp)] at hpm1
    exact hpm1
  set base := List.replicate a (⟨-1, 0⟩ : PhaseVal) ++ cardiacIntervals (a :: rest)
    with hbase
  have hbaselen : base.length = pm1 := by
    rw [hbase, List.length_append, List.length_replicate,
      cardiacIntervals_length rest a pm1 hchle hlast]
    have := chain_le_getLast? rest a pm1 hchle hlast
    omega
  have hp1le : p1 ≤ pm1 :=
    chain_get?_le_getLast? rest a 1 p1 pm1 hchle hp1 hlast
  have hp0p1 : a < p1 := by
    cases rest with
    | nil => simp at hp1
    | cons b rest2 =>
        have hb : b = p1 := by simpa using hp1
        subst hb
        exact (List.chain'_cons.mp hchain).1
  have hpm1full : pm1 < fullLength :=
    hfull pm1 (List.mem_of_mem_getLast? hlast)
  -- element-wise goodness of the interval region of `base`
  have hregion0 : ∀ j v, a ≤ j → base.get? j = some v → CardGood v := by
    intro j v hj hv
    rw [hbase, List.get?_append_right (by simpa using hj)] at hv
    simp only [List.length_replicate] at hv
    exact cardiacIntervals_good _ v (List.get?_mem hv)
  -- run the head fix-up loop
  obtain ⟨afterHead, hH, hHlen, hHregion, hHgood, _⟩ :=
    cardiacHeadFix_spec a base 0 (p1 - a) a (by omega) (by omega)
      (by rw [hbaselen]; omega) hregion0
  have hiIdx : ((p1 : ℤ) - (a : ℤ)) = ((0 : ℕ) : ℤ) + (((p1 - a : ℕ)) : ℤ) := by
    push_cast [Nat.cast_sub (le_of_lt hp0p1)]
    ring
  have hHlen' : afterHead.length = pm1 := by rw [hHlen, hbaselen]
  -- every entry of `afterHead` is good
  have hHall : ∀ j v, afterHead.get? j = some v → CardGood v := by
    intro j v hv
    rcases Nat.lt_or_ge j a with hja | hja
    · obtain ⟨w, hw, hwg⟩ := hHgood j (by omega) (by omega)
      rw [hv] at hw
      cases hw
      exact hwg
    · exact hregion0 j v hja (by rw [← hHregion j hja]; exact hv)
  -- run the tail loop
  obtain ⟨lp, hT, hTlen, hTpre, hTgood⟩ :=
    cardiacTailFix_good (fullLength - pm1) afterHead (pm2 + 1)
      (by right; rw [hHlen']; omega) (fun j v _ hv => hHall j v hv)
  have hTiIdx : ((pm2 : ℤ) + 1) = (((pm2 + 1 : ℕ)) : ℤ) := by push_cast; ring
  -- assemble the successful run of `determineCardiacPhasesPre`
  have hPre : determineCardiacPhasesPre (a :: rest) fullLength = some lp := by
    rw [determineCardiacPhasesPre]
    rw [hp0, hp1, hpm1, hpm2]
    simp only [Option.bind_eq_bind, Option.some_bind]
    rw [hiIdx, hH]
    simp only [Option.some_bind]
    rw [hTiIdx, hT]
  have hlpall : ∀ j v, lp.get? j = some v → CardGood v := by
    intro j v hv
    rcases Nat.lt_or_ge j afterHead.length with hja | hja
    · exact hHall j v (by rw [← hTpre j hja]; exact hv)
    · exact hTgood j v (by omega) hv
  refine ⟨lp, lp.map (fun v => ⟨v.a, v.b - 1⟩), hPre, ?_, ?_, ?_, ?_⟩
  · rw [determineCardiacPhases, hPre]
    rfl
  · rw [List.length_map, hTlen, hHlen']
    omega
  · intro w hw
    simp only [List.mem_map] at hw
    obtain ⟨v, hv, rfl⟩ := hw
    obtain ⟨n, hn⟩ := List.get?_of_mem hv
    have hvg := hlpall n v hn
    have := cardGood_range v hvg
    simpa using this
  · intro i s e j k hs he hsj hjk hke vj vk hvj hvk
    have hse : s < e := chain_lt_of_get?_succ (a :: rest) i s e hchain hs he
    have hsa : a ≤ s := chain_le_get? rest a i s hchle hs
    have hepm1 : e ≤ pm1 :=
      chain_get?_le_getLast? rest a (i + 1) e pm1 hchle he hlast
    -- identify the two values with interval-ramp values
    have hint : ∀ m vm, s ≤ m → m < e → lp.get? m = some vm →
        vm = ⟨0, 2 * ((m : ℚ) - (s : ℚ)) / ((e : ℚ) - (s : ℚ))⟩ := by
      intro m vm hsm hme hvm
      have hmlt : m < pm1 := by omega
      have h1 : lp.get? m = afterHead.get? m := hTpre m (by omega)
      have h2 : afterHead.get? m = base.get? m := hHregion m (by omega)
      have h3 : base.get? m = (cardiacIntervals (a :: rest)).get? (m - a) := by
        rw [hbase, List.get?_append_right (by simp; omega)]
        simp
      have h4 := cardiacIntervals_get? rest a i s e m hchle hs he hsm hme
      rw [h1, h2, h3, h4] at hvm
      exact (Option.some.inj hvm).symm
    rw [hint j vj hsj (by omega) hvj, hint k vk (by omega) hke hvk]
    have hden : (0 : ℝ) < (e : ℝ) - (s : ℝ) := by
      have : (s : ℝ) < (e : ℝ) := by exact_mod_cast hse
      linarith
    have hjk' : (j : ℝ) ≤ (k : ℝ) := by exact_mod_cast hjk
    have hmono : 2 * ((j : ℝ) - (s : ℝ)) / ((e : ℝ) - (s : ℝ)) ≤
        2 * ((k : ℝ) - (s : ℝ)) / ((e : ℝ) - (s : ℝ)) :=
      (div_le_div_right hden).mpr (by linarith)
    have := mul_le_mul_of_nonneg_right hmono Real.pi_pos.le
    push_cast
    simpa using this

/-- C4, witness for the amended theorem at `peaks = [2, 5]`, `fullLength = 7`
(first period `3 ≥ peaks[0] = 2`, last period `3 ≥ 2`). -/
theorem c4_amended_witness :
    ∃ lp l, determineCardiacPhasesPre [2, 5] 7 = some lp ∧
      determineCardiacPhases [2, 5] 7 = some l ∧
      l.length = 7 ∧
      (∀ v ∈ l, -Real.pi ≤ (v.a : ℝ) + (v.b : ℝ) * Real.pi ∧
        (v.a : ℝ) + (v.b : ℝ) * Real.pi < Real.pi) ∧
      (∀ i s e j k, ([2, 5] : List ℕ).get? i = some s →
        ([2, 5] : List ℕ).get? (i + 1) = some e →
        s ≤ j → j ≤ k → k < e →
        ∀ vj vk, lp.get? j = some vj → lp.get? k = some vk →
          (vj.a : ℝ) + (vj.b : ℝ) * Real.pi ≤ (vk.a : ℝ) + (vk.b : ℝ) * Real.pi) :=
  c4_amended [2, 5] 7 2 5 5 2 (by decide) (by decide) (by decide) (by decide)
    (by simp [List.chain'_cons]) (by decide) (by decide) (by decide)

/-! ### `determineRespiratoryPhases` (lib_retroicor.py, lines 585-758)

Respiratory phases are plain rational multiples of π; a list entry `q : ℚ`
stands for the phase `q·π` (the code only ever writes
`(math.pi * count * polarity) / denom` and the `np.zeros` initial value). -/

/-- `np.argmin` over a list of naturals: index of the first minimum
(raises on an empty array). -/
def argminAux : List ℕ → ℕ → ℕ → ℕ → ℕ
  | [], bi, _, _ => bi
  | y :: ys, bi, bv, ci =>
      if y < bv then argminAux ys ci y (ci + 1) else argminAux ys bi bv (ci + 1)

/-- `np.argmin (troughs)`: position of the first minimal entry. -/
def argmin : List ℕ → Option ℕ
  | [] => none
  | x :: xs => some (argminAux xs 0 x 1)

/-- The bin a sample value falls into under `np.histogram(sample, bins=100)`
with range `[lo, hi]`: equally spaced bins, the last bin closed; numpy
widens a degenerate range `lo = hi` to `[lo-0.5, hi+0.5]`, putting every
value into bin 50. Only called with `lo = min sample ≤ x ≤ max sample = hi`. -/
def binOf (lo hi : ℚ) (x : ℚ) : ℕ :=
  if lo = hi then 50 else min 99 (Int.toNat ⌊(x - lo) * 100 / (hi - lo)⌋)

/-- Add one count to bin `i`. -/
def bump (l : List ℕ) (i : ℕ) : List ℕ := l.set i (l.getD i 0 + 1)

/-- `np.histogram(sample, bins=100)[0]`: the list of 100 bin counts
(`np.histogram([])` yields all-zero counts). -/
def histogram (sample : List ℚ) : List ℕ :=
  match listMin sample, listMax sample with
  | some lo, some hi =>
      sample.foldl (fun acc x => bump acc (binOf lo hi x)) (List.replicate 100 0)
  | _, _ => List.replicate 100 0

/-- Summation-limit clipping of the boundary segment *before* the first
extremum: `end = min(end, len(counts)-1)` (line 656). -/
def clipPre (len : ℕ) (e : ℤ) : ℤ := min e ((len : ℤ) - 1)

/-- Summation-limit clipping of a full segment: `end = min(end, len(counts))`
(line 690). -/
def clipMain (len : ℕ) (e : ℤ) : ℤ := min e (len : ℤ)

/-- Summation-limit clipping of the boundary segment *after* the last
extremum: `if end >= len(counts): end = len(counts) - 1` (lines 720-721). -/
def clipTail (len : ℕ) (e : ℤ) : ℤ := if (len : ℤ) ≤ e then (len : ℤ) - 1 else e

/-- The phase written for one sample value `x` of a segment
(Glover eq. 3): `π · (Σ_{j<end} counts[j]) · polarity / denom` with
`end = clip (round (x·100/Rmax))`; the result is the coefficient of π. -/
def segPhase (counts : List ℕ) (clip : ℤ → ℤ) (Rmax : ℚ) (pol : ℤ)
    (denom : ℕ) (x : ℚ) : ℚ :=
  let e := clip (pythonRound (x * 100 / Rmax))
  (((counts.take e.toNat).sum : ℚ) * (pol : ℚ)) / (denom : ℚ)

/-- The per-segment write loop `for i in range(start, finish)`: writes
`f (sample[i-start])` to `phases[i]`; running out of sample values raises
IndexError (`none`). -/
def respWrite (f : ℚ → ℚ) : List ℚ → ℕ → List ℚ → ℕ → Option (List ℚ)
  | ph, _, _, 0 => some ph
  | ph, i, sample, n + 1 =>
      match sample with
      | [] => none
      | x :: rest => respWrite f (ph.set i (f x)) (i + 1) rest n

/-- One segment's writes.  A non-empty loop with `Rmax = 0` raises
(`round` of `inf`/`nan` after float division by zero); an empty loop never
evaluates the division, exactly as in Python. -/
def respSegmentWrites (phases : List ℚ) (start count : ℕ) (sample : List ℚ)
    (counts : List ℕ) (clip : ℤ → ℤ) (Rmax : ℚ) (pol : ℤ) (denom : ℕ) :
    Option (List ℚ) :=
  if count = 0 then some phases
  else if Rmax = 0 then none
  else respWrite (segPhase counts clip Rmax pol denom) phases start sample count

/-- The reference maximum of the pre-segment (lines 649-650):
`max(sample)` while inspiring (`polarity > 0`), otherwise the raw value at
the first peak. -/
def respPreRmax (pol : ℤ) (sample : List ℚ) (raw : List ℚ) (pk0 : ℕ) :
    Option ℚ :=
  if pol > 0 then listMax sample else raw.get? pk0

/-- The reference maximum of the tail segment (lines 715-716):
`max(sample)` while expiring (`polarity < 0`), otherwise the raw value at
the last peak. -/
def respTailRmax (pol : ℤ) (sample : List ℚ) (raw : List ℚ)
    (peaks : List ℕ) : Option ℚ :=
  if pol < 0 then listMax sample else do
    let pkLast ← pyGet peaks (-1)
    raw.get? pkLast

/-- The boundary segment before the first extremum (lines 634-661), on the
min-shifted raw signal.  Returns the phase array so far, the segment's
`finish`, and the polarity for the first full segment (the index
increments at lines 665-667 are dead code: lines 669-670 reset both
indices to 0, only the polarity flip survives). -/
def respPreSegment (peaks troughs : List ℕ) (raw : List ℚ) :
    Option (List ℚ × ℕ × ℤ) := do
  let pk0 ← peaks.get? 0
  let tr0 ← troughs.get? 0
  let pol : ℤ := if pk0 < tr0 then 1 else -1
  let phases := List.replicate raw.length (0 : ℚ)
  let tIdx ← argmin troughs
  let trMin ← troughs.get? tIdx
  let trVal ← raw.get? trMin
  let f0 := min pk0 trMin
  let finish := if f0 = 0 then max pk0 trMin else f0
  let sample := (raw.take finish).map (fun x => x - trVal)
  let counts := histogram sample
  let Rmax ← respPreRmax pol sample raw pk0
  let phases' ← respSegmentWrites phases 0 finish sample counts
    (clipPre counts.length) Rmax pol finish
  pure (phases', finish, -pol)

/-- The full-segment loop (lines 671-703): each iteration handles the
segment between the current peak and trough, then flips polarity,
advances one of the two indices and breaks when either runs out. -/
def respMainLoop (peaks troughs : List ℕ) (raw : List ℚ) :
    ℕ → ℕ → ℕ → ℤ → List ℚ → ℕ → Option (List ℚ × ℕ × ℤ)
  | 0, _, _, pol, phases, fin => some (phases, fin, pol)
  | n + 1, pI, tI, pol, phases, _ => do
      let pv ← peaks.get? pI
      let tv ← troughs.get? tI
      let start := min pv tv
      let finish := max pv tv
      let denom := finish - start
      let trVal ← raw.get? tv
      let sample0 := ((raw.take finish).drop start).map (fun x => x - trVal)
      let smin ← listMin sample0
      let sample := sample0.map (fun x => x - smin)
      let counts := histogram sample
      let Rmax ← listMax sample
      let phases' ← respSegmentWrites phases start denom sample counts
        (clipMain counts.length) Rmax pol denom
      let pol' := -pol
      let pI' := if pol' > 0 then pI + 1 else pI
      let tI' := if pol' > 0 then tI else tI + 1
      if pI' ≥ peaks.length ∨ tI' ≥ troughs.length then
        pure (phases', finish, pol')
      else
        respMainLoop peaks troughs raw n pI' tI' pol' phases' finish

/-- `determineRespiratoryPhases`: min-shift the raw data, run the
pre-segment, the `numFullSegments = len(peaks)+len(troughs)-1` main loop,
and the tail segment (lines 705-729). -/
def determineRespiratoryPhases (peaks troughs : List ℕ) (rawData : List ℚ) :
    Option (List ℚ) := do
  let rmin ← listMin rawData
  let raw := rawData.map (fun x => x - rmin)
  let s0 ← respPreSegment peaks troughs raw
  let numFullSegments := peaks.length + troughs.length - 1
  let s1 ← respMainLoop peaks troughs raw numFullSegments 0 0 s0.2.2 s0.1 s0.2.1
  let start := s1.2.1
  let finish := raw.length
  let denom := finish - start
  let trLast ← pyGet troughs (-1)
  let trVal ← raw.get? trLast
  let sample := (raw.drop start).map (fun x => x - trVal)
  let counts := histogram sample
  let Rmax ← respTailRmax s1.2.2 sample raw peaks
  respSegmentWrites s1.1 start denom sample counts (clipTail counts.length)
    Rmax s1.2.2 denom

theorem take_sum_le (l : List ℕ) (k : ℕ) : (l.take k).sum ≤ l.sum := by
  conv_rhs => rw [← List.take_append_drop k l]
  rw [List.sum_append]
  omega

theorem binOf_lt (lo hi x : ℚ) : binOf lo hi x < 100 := by
  rw [binOf]
  split
  · omega
  · omega

theorem bump_length (l : List ℕ) (i : ℕ) : (bump l i).length = l.length := by
  simp [bump]

theorem bump_sum : ∀ (l : List ℕ) (i : ℕ), i < l.length → (bump l i).sum = l.sum + 1
  | [], i, h => absurd h (by simp)
  | x :: xs, 0, _ => by
      simp [bump, List.getD]
      omega
  | x :: xs, i + 1, h => by
      have ih := bump_sum xs i (by simpa using h)
      simp only [bump, List.getD] at ih ⊢
      simp only [List.set_cons_succ, List.sum_cons, List.get?_cons_succ]
      omega

theorem foldl_bump_length : ∀ (s : List ℚ) (g : ℚ → ℕ) (acc : List ℕ),
    (s.foldl (fun acc x => bump acc (g x)) acc).length = acc.length
  | [], _, _ => rfl
  | x :: xs, g, acc => by
      rw [List.foldl_cons, foldl_bump_length xs g (bump acc (g x)), bump_length]

theorem foldl_bump_sum : ∀ (s : List ℚ) (g : ℚ → ℕ) (acc : List ℕ),
    (∀ x, g x < acc.length) →
    (s.foldl (fun acc x => bump acc (g x)) acc).sum = acc.sum + s.length
  | [], _, _, _ => by simp
  | x :: xs, g, acc, hg => by
      rw [List.foldl_cons,
        foldl_bump_sum xs g (bump acc (g x)) (fun y => by rw [bump_length]; exact hg y),
        bump_sum acc (g x) (hg x)]
      simp
      omega

theorem histogram_length (s : List ℚ) : (histogram s).length = 100 := by
  rw [histogram]
  rcases listMin s with _ | lo <;> rcases listMax s with _ | hi <;>
    simp [foldl_bump_length]

theorem histogram_sum (s : List ℚ) : (histogram s).sum = s.length := by
  rw [histogram]
  have hempty : listMin s = none → s = [] := by
    intro h
    cases s with
    | nil => rfl
    | cons x xs => simp [listMin] at h
  rcases hmin : listMin s with _ | lo
  · have := hempty hmin
    subst this
    simp
  · rcases hmax : listMax s with _ | hi
    · cases s with
      | nil => simp [listMin] at hmin
      | cons x xs => simp [listMax] at hmax
    · rw [foldl_bump_sum s _ _ (fun x => by
        rw [List.length_replicate]; exact binOf_lt lo hi x)]
      simp

theorem segPhase_bounded (counts : List ℕ) (clip : ℤ → ℤ) (Rmax : ℚ)
    (pol : ℤ) (denom : ℕ) (x : ℚ)
    (hpol : pol = 1 ∨ pol = -1) (hsum : counts.sum ≤ denom) :
    -1 ≤ segPhase counts clip Rmax pol denom x ∧
      segPhase counts clip Rmax pol denom x ≤ 1 := by
  rw [segPhase]
  set c : ℕ := (counts.take (clip (pythonRound (x * 100 / Rmax))).toNat).sum with hc
  have hcle : c ≤ denom := le_trans (take_sum_le _ _) hsum
  rcases Nat.eq_zero_or_pos denom with hd | hd
  · have hc0 : c = 0 := by omega
    rw [hc0, hd]
    norm_num
  · have hdpos : (0 : ℚ) < (denom : ℚ) := by exact_mod_cast hd
    have hcq : ((c : ℚ)) ≤ ((denom : ℚ)) := by exact_mod_cast hcle
    have hc0 : (0 : ℚ) ≤ (c : ℚ) := by positivity
    rcases hpol with rfl | rfl
    · constructor
      · push_cast
        have h0 : (0 : ℚ) ≤ (c : ℚ) * 1 / (denom : ℚ) := by positivity
        linarith
      · push_cast
        rw [div_le_one hdpos]
        linarith
    · constructor
      · push_cast
        rw [le_div_iff hdpos]
        linarith
      · push_cast
        have h0 : ((c : ℚ)) * (-1) / (denom : ℚ) ≤ 0 :=
          div_nonpos_of_nonpos_of_nonneg (by linarith) (le_of_lt hdpos)
        linarith

theorem respWrite_bounded : ∀ (n : ℕ) (f : ℚ → ℚ) (ph : List ℚ) (i : ℕ)
    (sample : List ℚ) (l : List ℚ),
    (∀ x ∈ ph, -1 ≤ x ∧ x ≤ 1) →
    (∀ x, -1 ≤ f x ∧ f x ≤ 1) →
    respWrite f ph i sample n = some l →
    ∀ x ∈ l, -1 ≤ x ∧ x ≤ 1
  | 0, f, ph, i, sample, l, hph, _, h => by
      simp only [respWrite] at h
      cases h
      exact hph
  | n + 1, f, ph, i, sample, l, hph, hf, h => by
      match sample with
      | [] => simp [respWrite] at h
      | x :: rest =>
          simp only [respWrite] at h
          refine respWrite_bounded n f (ph.set i (f x)) (i + 1) rest l ?_ hf h
          intro y hy
          rcases List.mem_or_eq_of_mem_set hy with hmem | rfl
          · exact hph y hmem
          · exact hf x

theorem respSegmentWrites_bounded (phases : List ℚ) (start count : ℕ)
    (sample : List ℚ) (counts : List ℕ) (clip : ℤ → ℤ) (Rmax : ℚ)
    (pol : ℤ) (denom : ℕ) (l : List ℚ)
    (hph : ∀ x ∈ phases, -1 ≤ x ∧ x ≤ 1)
    (hpol : pol = 1 ∨ pol = -1)
    (hsum : counts.sum ≤ denom)
    (h : respSegmentWrites phases start count sample counts clip Rmax pol denom
      = some l) :
    ∀ x ∈ l, -1 ≤ x ∧ x ≤ 1 := by
  rw [respSegmentWrites] at h
  split at h
  · cases h
    exact hph
  · split at h
    · exact absurd h (by simp)
    · exact respWrite_bounded count _ phases start sample l hph
        (fun x => segPhase_bounded counts clip Rmax pol denom x hpol hsum) h

theorem respPreSegment_bounded (peaks troughs : List ℕ) (raw : List ℚ)
    (out : List ℚ × ℕ × ℤ)
    (h : respPreSegment peaks troughs raw = some out) :
    (∀ x ∈ out.1, -1 ≤ x ∧ x ≤ 1) ∧ (out.2.2 = 1 ∨ out.2.2 = -1) := by
  rw [respPreSegment] at h
  simp only [Option.bind_eq_bind, Option.bind_eq_some, Option.pure_def,
    Option.some.injEq] at h
  obtain ⟨pk0, hpk0, tr0, htr0, tIdx, htIdx, trMin, htrMin, trVal, htrVal,
    Rmax, hRmax, ph', hph', hout⟩ := h
  subst hout
  constructor
  · refine respSegmentWrites_bounded _ _ _ _ _ _ _ _ _ _
      (fun x hx => by
        have := List.eq_of_mem_replicate hx
        subst this
        norm_num)
      (by split <;> simp) ?_ hph'
    rw [histogram_sum]
    simp only [List.length_map, List.length_take]
    omega
  · simp only
    split <;> simp

theorem respMainLoop_bounded : ∀ (fuel : ℕ) (peaks troughs : List ℕ)
    (raw : List ℚ) (pI tI : ℕ) (pol : ℤ) (phases : List ℚ) (fin : ℕ)
    (out : List ℚ × ℕ × ℤ),
    (pol = 1 ∨ pol = -1) →
    (∀ x ∈ phases, -1 ≤ x ∧ x ≤ 1) →
    respMainLoop peaks troughs raw fuel pI tI pol phases fin = some out →
    (∀ x ∈ out.1, -1 ≤ x ∧ x ≤ 1) ∧ (out.2.2 = 1 ∨ out.2.2 = -1)
  | 0, peaks, troughs, raw, pI, tI, pol, phases, fin, out, hpol, hph, h => by
      simp only [respMainLoop, Option.some.injEq] at h
      subst h
      exact ⟨hph, hpol⟩
  | n + 1, peaks, troughs, raw, pI, tI, pol, phases, fin, out, hpol, hph, h => by
      rw [respMainLoop] at h
      simp only [Option.bind_eq_bind, Option.bind_eq_some, Option.pure_def] at h
      obtain ⟨pv, hpv, tv, htv, trVal, htrVal, smin, hsmin, Rmax, hRmax,
        ph', hph', hrest⟩ := h
      have hbound : ∀ x ∈ ph', -1 ≤ x ∧ x ≤ 1 := by
        refine respSegmentWrites_bounded _ _ _ _ _ _ _ _ _ _ hph hpol ?_ hph'
        rw [histogram_sum]
        simp only [List.length_map, List.length_drop, List.length_take]
        omega
      have hpol' : (-pol = 1 ∨ -pol = -1) := by
        rcases hpol with rfl | rfl <;> simp
      rcases hpol with rfl | rfl <;> norm_num at hrest <;> split at hrest
      · simp only [Option.some.injEq] at hrest
        subst hrest
        exact ⟨hbound, by norm_num⟩
      · exact respMainLoop_bounded n peaks troughs raw _ _ (-1) ph' _ out
          (by norm_num) hbound hrest
      · simp only [Option.some.injEq] at hrest
        subst hrest
        exact ⟨hbound, by norm_num⟩
      · exact respMainLoop_bounded n peaks troughs raw _ _ 1 ph' _ out
          (by norm_num) hbound hrest

/-- C3, amended, core bound: every phase coefficient produced by
`determineRespiratoryPhases` lies in `[-1, 1]` (phase in `[-π, π]`). -/
theorem determineRespiratoryPhases_bounded (peaks troughs : List ℕ)
    (rawData : List ℚ) (l : List ℚ)
    (h : determineRespiratoryPhases peaks troughs rawData = some l) :
    ∀ q ∈ l, -1 ≤ q ∧ q ≤ 1 := by
  rw [determineRespiratoryPhases] at h
  simp only [Option.bind_eq_bind, Option.bind_eq_some] at h
  obtain ⟨rmin, hrmin, s0, hs0, s1, hs1, trLast, htrLast, trVal, htrVal,
    Rmax, hRmax, hl⟩ := h
  obtain ⟨hb0, hp0⟩ := respPreSegment_bounded _ _ _ _ hs0
  obtain ⟨hb1, hp1⟩ := respMainLoop_bounded _ _ _ _ _ _ _ _ _ _ hp0 hb0 hs1
  refine respSegmentWrites_bounded _ _ _ _ _ _ _ _ _ _ hb1 hp1 ?_ hl
  rw [histogram_sum]
  simp only [List.length_map, List.length_drop]
  omega

set_option maxHeartbeats 4000000 in
set_option maxRecDepth 100000 in
/-- Output of `determineRespiratoryPhases [1] [3] [1, 2, 1, 0, 1]` as phase
coefficients of π: the full (expiration) segment `[1, 3)` contains its own
maximum, whose summation limit covers the whole histogram, so the phase
written at sample 1 is exactly `-π`. -/
theorem respExample_eval :
    determineRespiratoryPhases [1] [3] [1, 2, 1, 0, 1] =
      some [1, -1, 0, 0, 1/2] := by
  norm_num [determineRespiratoryPhases, respPreSegment, respMainLoop,
    respPreRmax, respTailRmax,
    respSegmentWrites, respWrite, segPhase, histogram, listMin, listMax,
    binOf, bump, argmin, argminAux, pyGet, pythonRound, clipPre, clipMain,
    clipTail, List.replicate_succ, List.set, List.getD, Int.toNat_ofNat,
    -Nat.cast_list_sum]
  refine ⟨?_, ?_, ?_⟩
  · decide
  · rw [div_eq_iff (by norm_num : (2 : ℚ) ≠ 0)]
    norm_num [-Nat.cast_list_sum]
    rw [show (2 : ℚ) = ((2 : ℕ) : ℚ) by norm_num, Nat.cast_inj]
    decide
  · rw [div_eq_iff (by norm_num : (2 : ℚ) ≠ 0)]
    norm_num [-Nat.cast_list_sum]
    decide

/-- C3, counterexample.  For the alternating input `peaks = [1]`,
`troughs = [3]`, raw signal `[1, 2, 1, 0, 1]` (all segments non-empty with
positive maximum amplitude), the returned phase at sample 1 is exactly
`-1·π = -π`, which is *not* strictly above `-π`: the interval is closed at
`-π`, not open as the claim states. -/
theorem c3_counterexample :
    determineRespiratoryPhases [1] [3] [1, 2, 1, 0, 1] =
      some [1, -1, 0, 0, 1/2] ∧
    (-1 : ℚ) ∈ ([1, -1, 0, 0, 1/2] : List ℚ) ∧
    ¬ (-Real.pi < ((-1 : ℚ) : ℝ) * Real.pi) := by
  refine ⟨respExample_eval, by norm_num, ?_⟩
  push_cast
  rw [neg_one_mul]
  exact lt_irrefl _

/-- C3, amended.  Every entry of any phase array returned by
`determineRespiratoryPhases` lies in the *closed* interval `[-π, π]`
(both bounds attained); the claim's strict lower bound `> -π` fails. -/
theorem c3_amended (peaks troughs : List ℕ) (rawData : List ℚ) (l : List ℚ)
    (h : determineRespiratoryPhases peaks troughs rawData = some l) :
    ∀ q ∈ l, -Real.pi ≤ (q : ℝ) * Real.pi ∧ (q : ℝ) * Real.pi ≤ Real.pi := by
  intro q hq
  obtain ⟨h1, h2⟩ := determineRespiratoryPhases_bounded peaks troughs rawData l h q hq
  have h1' : (-1 : ℝ) ≤ (q : ℝ) := by exact_mod_cast h1
  have h2' : (q : ℝ) ≤ 1 := by exact_mod_cast h2
  have hpi := Real.pi_pos
  constructor
  · nlinarith
  · nlinarith

/-- C3, witness for the amended theorem: the phase value `-π` of the
counterexample input is inside the closed interval `[-π, π]`. -/
theorem c3_amended_witness :
    -Real.pi ≤ ((-1 : ℚ) : ℝ) * Real.pi ∧ ((-1 : ℚ) : ℝ) * Real.pi ≤ Real.pi :=
  c3_amended [1] [3] [1, 2, 1, 0, 1] [1, -1, 0, 0, 1/2] respExample_eval
    (-1) (by norm_num)

/-! ### Module globals and the Glover coefficient fitters
(lib_retroicor.py, lines 39-48 and 514-582) -/

/-- The integer global constants defined at the top level of
`lib_retroicor.py` (lines 40-42: `GLOBAL_M = 3`, `numSections = 1`,
`NUM_RVT = 5`; the string `OutDir` and float `g_epsilon` are irrelevant to
name resolution of integer globals).  The name `M` is *not* among them. -/
def moduleGlobals : List (String × ℤ) :=
  [("GLOBAL_M", 3), ("numSections", 1), ("NUM_RVT", 5)]

/-- Python global-name resolution: look the name up in the module's
globals; an absent name raises NameError (`none`). -/
def envLookup (name : String) : Option ℤ := moduleGlobals.lookup name

/-- One coefficient of the Glover eq. 4 fit (the inner `for n in
range(0,N)` loop of `getACoeffs`/`getBCoeffs`): `N = len(data)`, so
`phases[n]` raises IndexError when `phases` is shorter than `data`, and a
zero denominator raises ZeroDivisionError. -/
def gloverCoeff {α : Type} (data : List ℚ) (phases : List α)
    (basisF : α → ℚ) : Option ℚ := do
  let mean := data.sum / (data.length : ℚ)
  let terms ← (List.range data.length).mapM (fun n => do
    let x ← data.get? n
    let p ← phases.get? n
    pure ((x - mean) * basisF p, basisF p * basisF p))
  let denom := (terms.map Prod.snd).sum
  if denom = 0 then none
  else some ((terms.map Prod.fst).sum / denom)

/-- `getACoeffs` (lines 514-547): reads the module global `GLOBAL_M`
(line 536: `global GLOBAL_M`) and fits one a-coefficient per harmonic
order `m = 1 … GLOBAL_M-1`; `basisF m φ` stands for `math.cos(m*φ)`. -/
def getACoeffs {α : Type} (data : List ℚ) (phases : List α)
    (basisF : ℤ → α → ℚ) : Option (List ℚ) := do
  let M ← envLookup "GLOBAL_M"
  (List.range (M - 1).toNat).mapM (fun m0 =>
    gloverCoeff data phases (basisF ((m0 : ℤ) + 1)))

/-- `getBCoeffs` (lines 549-582): identical shape, but line 571 declares
`global M` and line 573 iterates `range(1, M)` — and the name `M` is
defined nowhere in the module (only `GLOBAL_M` is), so every call raises
NameError before computing anything; `basisF m φ` stands for
`math.sin(m*φ)`. -/
def getBCoeffs {α : Type} (data : List ℚ) (phases : List α)
    (basisF : ℤ → α → ℚ) : Option (List ℚ) := do
  let M ← envLookup "M"
  (List.range (M - 1).toNat).mapM (fun m0 =>
    gloverCoeff data phases (basisF ((m0 : ℤ) + 1)))

/-! ### `getPhysiologicalNoiseComponents` (lib_retroicor.py, lines 760-921) -/

/-- The dictionary that `getPhysiologicalNoiseComponents` returns on
success (lines 918-921): the two phase arrays. -/
structure PhysioComponents where
  respiratoryPhases : List ℚ
  cardiacPhases : List PhaseVal
deriving DecidableEq, Repr

/-- The output-table section of `getPhysiologicalNoiseComponents`
(lines 853-915).  The assembled DataFrame is discarded (the function
returns the phase dictionary), but the section decides failure:
if both phase lists are empty, `T` is never assigned and line 885
(`print('T = ', T)`) raises NameError; `parameters["-s"] = 0` makes
`nrow % numSections` (line 912) raise ZeroDivisionError; and when fewer
rows than sections survive, `np.reshape` of a size-0 matrix with a `-1`
dimension raises ValueError.  The sine/cosine regressor values themselves
never fail and do not influence the returned dictionary. -/
def dfSection (s : ℕ) (respPhases : List ℚ) (cardPhases : List PhaseVal) :
    Option PhysioComponents :=
  if respPhases.length = 0 ∧ cardPhases.length = 0 then none
  else if s = 0 then none
  else
    let T := if respPhases.length ≠ 0 ∧ cardPhases.length ≠ 0 then
        min respPhases.length cardPhases.length
      else if respPhases.length ≠ 0 then respPhases.length
      else cardPhases.length
    if T - T % s = 0 then none
    else some ⟨respPhases, cardPhases⟩

/-- `getPhysiologicalNoiseComponents`.  The outcomes of the raw-data file
reads and of the two `lpf`-based peak pipelines (`getCardiacPeaks`,
`getRespiratoryPeaks`, whose filter stages live in the external
`libPeakFilters` module) are supplied as inputs: `cardPeaksRes` is the
`(peaks, fullLength)` pair and `respPeaksRes` the
`(peaks, troughs, fullLength)` triple those pipelines returned.
`cosC`/`sinC`/`cosR`/`sinR` stand for `math.cos`/`math.sin` of `m·φ` in
the coefficient fitters.  Mirrors the control flow: an empty raw array or
an empty peak list aborts with the failure value (lines 798-800, 806-808,
819-821, 825-827); with `-aby` the four coefficient fits run (lines
836-842); finally the table section decides success. -/
def getPhysiologicalNoiseComponents
    (cardRequested respRequested : Bool)
    (cardRaw respRaw : List ℚ)
    (cardPeaksRes : List ℕ × ℕ)
    (respPeaksRes : List ℕ × List ℕ × ℕ)
    (aby : Bool) (s : ℕ)
    (cardArr respArr : List ℚ)
    (cosC sinC : ℤ → PhaseVal → ℚ) (cosR sinR : ℤ → ℚ → ℚ) :
    Option PhysioComponents := do
  let cardiacPhases ← (if cardRequested then
      (if cardRaw.length = 0 then none
       else if cardPeaksRes.1.length = 0 then none
       else determineCardiacPhases cardPeaksRes.1 cardPeaksRes.2)
    else some [])
  let respiratoryPhases ← (if respRequested then
      (if respRaw.length = 0 then none
       else if respPeaksRes.1.length = 0 then none
       else determineRespiratoryPhases respPeaksRes.1 respPeaksRes.2.1 respRaw)
    else some [])
  if aby then do
    let _ ← getACoeffs cardArr cardiacPhases cosC
    let _ ← getACoeffs respArr respiratoryPhases cosR
    let _ ← getBCoeffs cardArr cardiacPhases sinC
    let _ ← getBCoeffs respArr respiratoryPhases sinR
    dfSection s respiratoryPhases cardiacPhases
  else
    dfSection s respiratoryPhases cardiacPhases

/-- C9.  `getBCoeffs` reads the undefined global `M` (never assigned in
the module, unlike `GLOBAL_M = 3`), so every call fails with NameError;
consequently a run with `-aby` enabled can never produce b coefficients:
`getPhysiologicalNoiseComponents` with `aby = true` always returns the
failure value, whatever its other inputs. -/
theorem c9_getBCoeffs_name_error :
    (envLookup "M" = none ∧ envLookup "GLOBAL_M" = some 3) ∧
    (∀ (data phases : List ℚ) (basisF : ℤ → ℚ → ℚ),
      getBCoeffs data phases basisF = none) ∧
    (∀ (cardRequested respRequested : Bool) (cardRaw respRaw : List ℚ)
       (cardPeaksRes : List ℕ × ℕ) (respPeaksRes : List ℕ × List ℕ × ℕ)
       (s : ℕ) (cardArr respArr : List ℚ)
       (cosC sinC : ℤ → PhaseVal → ℚ) (cosR sinR : ℤ → ℚ → ℚ),
      getPhysiologicalNoiseComponents cardRequested respRequested cardRaw
        respRaw cardPeaksRes respPeaksRes true s cardArr respArr
        cosC sinC cosR sinR = none) := by
  have hM : envLookup "M" = none := by rfl
  have hBC : ∀ (α : Type) (data : List ℚ) (phases : List α)
      (basisF : ℤ → α → ℚ), getBCoeffs data phases basisF = none := by
    intro α data phases basisF
    rw [getBCoeffs, hM]
    rfl
  refine ⟨⟨hM, by rfl⟩, fun data phases basisF => hBC ℚ data phases basisF, ?_⟩
  intro cardRequested respRequested cardRaw respRaw cardPeaksRes respPeaksRes
    s cardArr respArr cosC sinC cosR sinR
  rw [getPhysiologicalNoiseComponents]
  rcases hcp : (if cardRequested then
      (if cardRaw.length = 0 then none
       else if cardPeaksRes.1.length = 0 then none
       else determineCardiacPhases cardPeaksRes.1 cardPeaksRes.2)
    else some []) with _ | cph
  · rfl
  · rcases hrp : (if respRequested then
        (if respRaw.length = 0 then none
         else if respPeaksRes.1.length = 0 then none
         else determineRespiratoryPhases respPeaksRes.1 respPeaksRes.2.1
           respRaw)
      else some []) with _ | rph
    · simp [Option.bind_eq_bind, hcp, hrp]
    · simp only [Option.bind_eq_bind, hcp, hrp, Option.some_bind, if_true]
      rcases ha1 : getACoeffs cardArr cph cosC with _ | a1
      · simp [ha1]
      · rcases ha2 : getACoeffs respArr rph cosR with _ | a2
        · simp [ha1, ha2]
        · simp [ha1, ha2, hBC PhaseVal cardArr cph sinC]

/-! ### `readRawInputData` (lib_retroicor.py, lines 923-974) -/

/-- The line-reading loop (lines 950-962): each file line is `some q` when
it parses as a float, `none` when it is non-numeric.  Entries equal to
exactly 5000.0 are skipped; a non-numeric line makes the whole function
return `[]` at once (line 962). -/
def readPhysLines : List (Option ℚ) → List ℚ
  | [] => []
  | none :: _ => []
  | some x :: rest =>
      if x ≠ 5000 then x :: readPhysLines rest else readPhysLines rest

/-- Python slicing `v[start:-1]` (line 972): a negative start counts from
the end and clamps at 0; the `-1` stop drops the final element. -/
def pySliceToNeg1 (l : List ℚ) (start : ℤ) : List ℚ :=
  (if 0 ≤ start then l.drop start.toNat
   else l.drop (l.length - (-start).toNat)).dropLast

/-- `readRawInputData`: when no BIDS-style `phys_dat` array is supplied,
read the file lines (dropping 5000.0 artifacts); then, if a negative
`StartTime` is present, trim `round(-StartTime*phys_fs)` leading samples
*and* the final sample (the `v_np[start_index:-1]` slice). -/
def readRawInputData (startTime : Option ℚ) (physFs : ℚ)
    (fileLines : List (Option ℚ)) (physDat : List ℚ) : List ℚ :=
  let v := if physDat.length = 0 then readPhysLines fileLines else physDat
  match startTime with
  | some st => if st < 0 then pySliceToNeg1 v (pythonRound (-st * physFs)) else v
  | none => v

theorem readPhysLines_eq (lines : List (Option ℚ))
    (h : ∀ o ∈ lines, o.isSome) :
    readPhysLines lines = (lines.filterMap id).filter (· ≠ 5000) := by
  induction lines with
  | nil => rfl
  | cons o rest ih =>
      match o with
      | none => exact absurd (h none (by simp)) (by simp)
      | some x =>
          rw [readPhysLines]
          rw [ih (fun o ho => h o (by simp [ho]))]
          by_cases hx : x = 5000
          · simp [hx]
          · simp [hx, List.filter_cons]

theorem pythonRound_nonneg (q : ℚ) (h : 0 ≤ q) : 0 ≤ pythonRound q := by
  rw [pythonRound]
  have hf : (0 : ℤ) ≤ ⌊q⌋ := Int.le_floor.mpr (by exact_mod_cast h)
  split
  · exact hf
  · split
    · omega
    · split <;> omega

/-- C10.  On an all-numeric raw physiological file,
`readRawInputData` returns exactly the parsed values with every entry
equal to 5000.0 dropped; and when a negative `StartTime` is supplied it
additionally drops the first `round(-StartTime*phys_fs)` samples and the
final sample. -/
theorem c10_readRawInputData (fileLines : List (Option ℚ)) (st fs : ℚ)
    (hnum : ∀ o ∈ fileLines, o.isSome) (hfs : 0 < fs) :
    readRawInputData none fs fileLines [] =
      (fileLines.filterMap id).filter (· ≠ 5000) ∧
    (st < 0 →
      readRawInputData (some st) fs fileLines [] =
        ((((fileLines.filterMap id).filter (· ≠ 5000)).drop
          (pythonRound (-st * fs)).toNat).dropLast)) := by
  constructor
  · rw [readRawInputData]
    simp only [List.length_nil, if_pos rfl]
    exact readPhysLines_eq fileLines hnum
  · intro hst
    rw [readRawInputData]
    simp only [List.length_nil, if_pos rfl]
    rw [if_pos hst, pySliceToNeg1,
      if_pos (pythonRound_nonneg _ (by nlinarith)),
      readPhysLines_eq fileLines hnum]
    simp

/-- C10, witness: file `[1, 5000, 2, 3]`, `StartTime = -1`, `phys_fs = 1`:
without a start time the 5000.0 artifact is dropped; with it, one leading
sample and the final sample are removed. -/
theorem c10_witness :
    readRawInputData none 1 [some 1, some 5000, some 2, some 3] [] =
      ([some 1, some 5000, some 2, some 3].filterMap
        (id : Option ℚ → Option ℚ)).filter (· ≠ 5000) ∧
    ((-1 : ℚ) < 0 →
      readRawInputData (some (-1)) 1 [some 1, some 5000, some 2, some 3] [] =
        (((([some 1, some 5000, some 2, some 3].filterMap
          (id : Option ℚ → Option ℚ)).filter (· ≠ 5000)).drop
          (pythonRound (-(-1) * 1)).toNat).dropLast)) :=
  c10_readRawInputData [some 1, some 5000, some 2, some 3] (-1) 1
    (by simp) (by norm_num)

/-! ### `phase_estimator` (lib_retroicor.py, lines 1272-1319) -/

/-- Generic positional fact about a fold of in-place writes
`arr[i] = f i` over a list of indices. -/
theorem foldl_set_length (idxs : List ℕ) (arr : List ℚ) (f : ℕ → ℚ) :
    (idxs.foldl (fun a i => a.set i (f i)) arr).length = arr.length := by
  induction idxs generalizing arr with
  | nil => rfl
  | cons i rest ih => rw [List.foldl_cons, ih, List.length_set]

theorem foldl_set_get? (idxs : List ℕ) (arr : List ℚ) (f : ℕ → ℚ) (j : ℕ) :
    (idxs.foldl (fun a i => a.set i (f i)) arr).get? j =
      if j ∈ idxs ∧ j < arr.length then some (f j) else arr.get? j := by
  induction idxs generalizing arr with
  | nil => simp
  | cons i rest ih =>
      rw [List.foldl_cons, ih]
      by_cases hmem : j ∈ rest
      · by_cases hlen : j < arr.length
        · simp [hmem, hlen]
        · simp only [hmem, true_and, List.length_set, hlen, if_false]
          rw [List.get?_eq_none.mpr (by simp; omega),
            List.get?_eq_none.mpr (by omega)]
          simp [hlen]
      · by_cases hji : j = i
        · subst hji
          by_cases hlen : j < arr.length
          · simp [hmem, hlen, List.get?_set_eq_of_lt]
          · have hnoop : (arr.set j (f j)) = arr :=
              List.set_eq_of_length_le (by omega)
            simp [hmem, hlen, hnoop]
        · have hne : (arr.set i (f i)).get? j = arr.get? j :=
            List.get?_set_ne _ _ (fun h => hji h.symm)
          simp only [List.length_set, hne]
          simp [hmem, hji]

/-- The fixed sample-time grid `phasee["t"]` (lines 1273, 1277-1278):
`round(24199)` entries, `np.zeros` then `t[i] = 2.0000e-02 * i` for
`i = 1 … 24198`. -/
def peT : List ℚ :=
  (List.range' 1 24198).foldl (fun arr i => arr.set i ((2/100 : ℚ) * i))
    (List.replicate 24199 (0 : ℚ))

theorem peT_eq :
    peT = (List.range 24199).map (fun (i : ℕ) => (2/100 : ℚ) * (i : ℚ)) := by
  apply List.ext_get?
  intro j
  rw [peT, foldl_set_get?]
  by_cases hj : j < 24199
  · rcases Nat.eq_zero_or_pos j with rfl | hjpos
    · rw [if_neg (by
        rw [List.mem_range'_1]
        omega)]
      rw [List.get?_map, List.get?_range hj,
        show (List.replicate 24199 (0 : ℚ)).get? 0 = some 0 from rfl]
      norm_num
    · rw [if_pos (by
        constructor
        · rw [List.mem_range'_1]
          omega
        · rw [List.length_replicate]
          exact hj)]
      rw [List.get?_map, List.get?_range hj]
      rfl
  · rw [if_neg (by
      intro hcon
      obtain ⟨h1, h2⟩ := hcon
      rw [List.length_replicate] at h2
      omega)]
    rw [List.get?_map,
      List.get?_eq_none.mpr (by rw [List.length_replicate]; omega),
      List.get?_eq_none.mpr (by rw [List.length_range]; omega)]
    rfl

/-- `max(phasee["t"])`: the largest grid instant, `0.02 · 24198`. -/
def peTmax : ℚ := 48396 / 100

theorem peTmax_mem : peTmax ∈ peT := by
  rw [peT_eq, List.mem_map]
  exact ⟨24198, by simp, by norm_num [peTmax]⟩

theorem peT_le_max : ∀ x ∈ peT, x ≤ peTmax := by
  intro x hx
  rw [peT_eq, List.mem_map] at hx
  obtain ⟨i, hi, rfl⟩ := hx
  simp only [List.mem_range] at hi
  rw [peTmax]
  have : (i : ℚ) ≤ 24198 := by exact_mod_cast Nat.lt_succ_iff.mp hi
  nlinarith

/-- The output time grid of `phase_estimator` (lines 1286-1293):
`np.arange(0, max(t) - 0.5*TR, TR)` — which holds the `ceil(stop/TR)`
instants `k·TR` strictly below the stop value, for a positive step — with
one extra instant `last + TR` appended when `(max(t) - 0.5*TR) % TR == 0`;
appending reads `time_series_time[-1]`, which raises IndexError on an
empty grid. -/
def timeSeriesTime (TR : ℚ) : Option (List ℚ) :=
  let stop := peTmax - TR / 2
  let n : ℕ := (Int.ceil (stop / TR)).toNat
  let base := (List.range n).map (fun (k : ℕ) => (k : ℚ) * TR)
  if pymod stop TR = 0 then
    match base.getLast? with
    | none => none
    | some last => some (base ++ [last + TR])
  else some base

/-- C5, counterexample.  The claim quantifies over *every* positive TR,
but at `TR = 967.92` the stop value `max(t) - 0.5·TR` is exactly 0: the
`arange` grid is empty, `0 % TR == 0` holds, and the append reads
`time_series_time[-1]` of an empty array — an IndexError instead of the
claimed grid. -/
theorem c5_counterexample :
    (0 : ℚ) < 96792 / 100 ∧ timeSeriesTime (96792 / 100) = none := by
  constructor
  · norm_num
  · rw [timeSeriesTime]
    norm_num [peTmax, pymod]

/-- C5, amended.  For every positive TR with `max(t) - 0.5·TR ≠ 0` (the
counterexample excludes exactly `TR = 2·max(t) = 967.92`), the grid is
`t_k = k·TR` for every `k` with `k·TR` strictly below `max(t) - 0.5·TR`,
and exactly one extra trailing instant (the previous last plus TR) is
appended iff `max(t) - 0.5·TR` is an exact multiple of TR. -/
theorem c5_amended (TR : ℚ) (hTR : 0 < TR) (hstop : peTmax - TR / 2 ≠ 0) :
    ∃ l, timeSeriesTime TR = some l ∧
      (∀ i, i < l.length → l.get? i = some ((i : ℚ) * TR)) ∧
      (if pymod (peTmax - TR / 2) TR = 0 then
        ∀ k : ℕ, ((k : ℚ) * TR < peTmax - TR / 2 ↔ k + 1 < l.length)
      else
        ∀ k : ℕ, ((k : ℚ) * TR < peTmax - TR / 2 ↔ k < l.length)) := by
  set stop := peTmax - TR / 2 with hstopdef
  set n : ℕ := (Int.ceil (stop / TR)).toNat with hn
  clear_value n stop
  have hbase_get : ∀ i, i < n →
      ((List.range n).map (fun (k : ℕ) => (k : ℚ) * TR)).get? i
        = some ((i : ℚ) * TR) := by
    intro i hi
    rw [List.get?_map, List.get?_range hi]
    rfl
  have hbaselen :
      ((List.range n).map (fun (k : ℕ) => (k : ℚ) * TR)).length = n := by
    simp
  have hiff : ∀ k : ℕ, ((k : ℚ) * TR < stop ↔ k < n) := by
    intro k
    constructor
    · intro hk
      have h1 : (k : ℚ) < stop / TR := by
        rw [lt_div_iff hTR]
        linarith [hk]
      have h2 : (k : ℤ) < Int.ceil (stop / TR) := Int.lt_ceil.mpr (by exact_mod_cast h1)
      omega
    · intro hk
      have h2 : (k : ℤ) < Int.ceil (stop / TR) := by omega
      have h1 : (k : ℚ) < stop / TR := by
        have := Int.lt_ceil.mp h2
        exact_mod_cast this
      calc (k : ℚ) * TR < (stop / TR) * TR := by
            exact mul_lt_mul_of_pos_right h1 hTR
        _ = stop := div_mul_cancel₀ stop (ne_of_gt hTR)
  by_cases hmod : pymod stop TR = 0
  · -- exact multiple: stop = m·TR with m ≥ 1
    have hmul : stop = TR * (⌊stop / TR⌋ : ℚ) := by
      have := hmod
      rw [pymod] at this
      linarith
    set m : ℤ := ⌊stop / TR⌋ with hm
    have hdiv : stop / TR = (m : ℚ) := by
      rw [hmul]
      field_simp
    have hmpos : 1 ≤ m := by
      by_contra hcon
      push_neg at hcon
      have hm0 : m ≤ 0 := by omega
      have hstople : stop ≤ 0 := by
        rw [hmul]
        have : ((m : ℚ)) ≤ 0 := by exact_mod_cast hm0
        nlinarith
      have hgt : -(TR / 2) < stop := by
        rw [hstopdef]
        have hpm : (0 : ℚ) < peTmax := by norm_num [peTmax]
        linarith
      -- stop/TR ∈ (-1/2, 0], yet stop/TR = m is an integer ≤ 0, so m = 0
      have hm00 : m = 0 := by
        have h1 : (-(1 : ℚ) / 2) < (m : ℚ) := by
          rw [← hdiv, div_lt_div_iff (by norm_num) hTR]
          nlinarith
        have : (-1 : ℚ) < (m : ℚ) := by nlinarith
        have : (-1 : ℤ) < m := by exact_mod_cast this
        omega
      rw [hm00] at hmul
      simp at hmul
      exact hstop (by rw [hstopdef] at hmul ⊢; linarith [hmul])
    have hceil : Int.ceil (stop / TR) = m := by
      rw [hdiv, Int.ceil_intCast]
    have hnm : n = m.toNat := by rw [hn, hceil]
    have hnpos : 1 ≤ n := by omega
    refine ⟨(List.range n).map (fun (k : ℕ) => (k : ℚ) * TR)
        ++ [((n - 1 : ℕ) : ℚ) * TR + TR], ?_, ?_, ?_⟩
    · rw [timeSeriesTime]
      simp only [← hstopdef, ← hn, if_pos hmod]
      rw [List.getLast?_eq_get?, hbaselen, hbase_get (n - 1) (by omega)]
    · intro i hi
      simp only [List.length_append, hbaselen, List.length_cons,
        List.length_nil] at hi
      rcases Nat.lt_or_ge i n with hin | hin
      · rw [List.get?_append (by rw [hbaselen]; exact hin)]
        exact hbase_get i hin
      · have hieq : i = n := by omega
        rw [hieq]
        rw [List.get?_append_right (by rw [hbaselen])]
        rw [hbaselen, Nat.sub_self]
        simp only [List.get?_cons_zero, Option.some.injEq]
        have hcast : ((n - 1 : ℕ) : ℚ) = (n : ℚ) - 1 := by
          push_cast [Nat.cast_sub hnpos]
          ring
        rw [hcast]
        ring
    · rw [if_pos hmod]
      intro k
      rw [hiff k]
      simp only [List.length_append, hbaselen, List.length_cons, List.length_nil]
      omega
  · refine ⟨(List.range n).map (fun (k : ℕ) => (k : ℚ) * TR), ?_, ?_, ?_⟩
    · rw [timeSeriesTime]
      simp only [← hstopdef, ← hn, if_neg hmod]
    · intro i hi
      rw [hbaselen] at hi
      exact hbase_get i hi
    · rw [if_neg hmod]
      intro k
      rw [hiff k, hbaselen]

/-- C5, witness for the amended theorem at `TR = 2` (stop value `482.96`,
not a multiple of 2, so no extra instant). -/
theorem c5_amended_witness :
    ∃ l, timeSeriesTime 2 = some l ∧
      (∀ i, i < l.length → l.get? i = some ((i : ℚ) * 2)) ∧
      (if pymod (peTmax - 2 / 2) 2 = 0 then
        ∀ k : ℕ, ((k : ℚ) * 2 < peTmax - 2 / 2 ↔ k + 1 < l.length)
      else
        ∀ k : ℕ, ((k : ℚ) * 2 < peTmax - 2 / 2 ↔ k < l.length)) :=
  c5_amended 2 (by norm_num) (by norm_num [peTmax])

/-- My own `mapM` over `Option` (explicit recursion, used to model numpy
loops building one entry per iteration). -/
def mapMO {α β : Type} (f : α → Option β) : List α → Option (List β)
  | [] => some []
  | x :: xs => do
      let y ← f x
      let ys ← mapMO f xs
      pure (y :: ys)

theorem mapMO_length {α β : Type} (f : α → Option β) :
    ∀ (l : List α) (out : List β), mapMO f l = some out → out.length = l.length
  | [], out, h => by
      simp only [mapMO, Option.some.injEq] at h
      simp [← h]
  | x :: xs, out, h => by
      simp only [mapMO, Option.bind_eq_bind, Option.bind_eq_some, Option.pure_def,
        Option.some.injEq] at h
      obtain ⟨y, _, ys, hys, hout⟩ := h
      have := mapMO_length f xs ys hys
      simp [← hout, this]

/-- `np.argmin(abs(x - t))` over the grid: index of the first minimal
absolute difference. -/
def argminAbsAux (x : ℚ) : List ℚ → ℕ → ℕ → ℚ → ℕ
  | [], bi, _, _ => bi
  | t :: rest, bi, ci, bv =>
      if |x - t| < bv then argminAbsAux x rest ci (ci + 1) (|x - t|)
      else argminAbsAux x rest bi (ci + 1) bv

/-- `np.argmin` raises on an empty array, hence `Option`. -/
def argminAbs (x : ℚ) (ts : List ℚ) : Option ℕ :=
  match ts with
  | [] => none
  | t :: rest => some (argminAbsAux x rest 0 1 (|x - t|))

/-- The result dictionary of `phase_estimator`: the sample-time grid `t`,
the output grid `time_series_time`, and the per-slice phase column and
regressor block; `phaseSliceReg` is indexed slice-major
(`phase_slice_reg[:, comp, slice]` is `(phaseSliceReg[slice])[comp]`). -/
structure PhaseeResult where
  t : List ℚ
  timeSeriesTime : List ℚ
  phaseSlice : List (List ℚ)
  phaseSliceReg : List (List (List ℚ))
deriving Repr

/-- `phase_estimator` (lines 1272-1319).  `sinQ`/`cosQ` stand for
`np.sin`/`np.cos`.  The function hard-codes `numTimeSteps = round(24199)`,
`phasee["number_of_slices"] = 33` and the 0.02-second grid spacing; the
configured slice count (`parameters['s']`) and the physiological sampling
frequency are accepted but never read — only `parameters['slice_offset']`,
the TR and the phase array reach the computation.  Reading
`slice_offset[i_slice]` or `phase[imin]` out of range raises. -/
def phase_estimator (sinQ cosQ : ℚ → ℚ) (phase : List ℚ)
    (sliceOffset : List ℚ) (volumeTr : ℚ)
    (numberOfSlices : ℕ) (physFs : ℚ) : Option PhaseeResult := do
  let tst ← timeSeriesTime volumeTr
  let slices ← mapMO (fun iSlice => do
      let off ← sliceOffset.get? iSlice
      mapMO (fun ti => do
          let imin ← argminAbs (ti + off) peT
          phase.get? imin) tst)
    (List.range 33)
  let reg := slices.map (fun col =>
    [col.map sinQ, col.map cosQ,
     col.map (fun q => sinQ (2 * q)), col.map (fun q => cosQ (2 * q))])
  pure ⟨peT, tst, slices, reg⟩

/-- C8.  `phase_estimator` uses a hard-coded sample grid of exactly 24199
points spaced 0.02 s apart and exactly 33 slices, whatever the configured
number of slices and sampling frequency: the result is literally
independent of those two parameters, its `t` grid is
`[0.02·i | i < 24199]`, and on success the regressor block covers exactly
33 slices of 4 components each. -/
theorem c8_phase_estimator (sinQ cosQ : ℚ → ℚ) (phase : List ℚ)
    (sliceOffset : List ℚ) (volumeTr : ℚ) (n₁ n₂ : ℕ) (fs₁ fs₂ : ℚ) :
    phase_estimator sinQ cosQ phase sliceOffset volumeTr n₁ fs₁ =
      phase_estimator sinQ cosQ phase sliceOffset volumeTr n₂ fs₂ ∧
    (phase_estimator sinQ cosQ phase sliceOffset volumeTr n₁ fs₁).map
        (fun r => (r.phaseSliceReg.length, r.t,
          r.phaseSliceReg.map List.length)) =
      (phase_estimator sinQ cosQ phase sliceOffset volumeTr n₁ fs₁).map
        (fun _ => (33,
          (List.range 24199).map (fun (i : ℕ) => (2/100 : ℚ) * (i : ℚ)),
          List.replicate 33 4)) := by
  constructor
  · rfl
  · rcases hres : phase_estimator sinQ cosQ phase sliceOffset volumeTr n₁ fs₁
      with _ | r
    · rfl
    · simp only [Option.map_some', Option.some.injEq]
      rw [phase_estimator] at hres
      simp only [Option.bind_eq_bind, Option.bind_eq_some, Option.pure_def,
        Option.some.injEq] at hres
      obtain ⟨tst, htst, slices, hslices, hr⟩ := hres
      have hlen : slices.length = 33 := by
        rw [mapMO_length _ _ _ hslices]
        simp
      subst hr
      simp only [Prod.mk.injEq]
      refine ⟨?_, peT_eq, ?_⟩
      · simp [hlen]
      · simp only [List.map_map]
        rw [show (List.length ∘ fun (col : List ℚ) =>
          [col.map sinQ, col.map cosQ,
           col.map (fun q => sinQ (2 * q)),
           col.map (fun q => cosQ (2 * q))]) =
          fun (_ : List ℚ) => 4 from rfl]
        rw [List.map_const', hlen]

/-! ### `getSliceOffsets` and `retro_ts` (retroicorLauren.py) -/

/-- Possible outcomes of `getSliceOffsets` (retroicorLauren.py, lines
140-251): a returned offset list, the `return None` after the custom
length-mismatch report (lines 217-220), the `return None` after a custom
parse failure (lines 210-216), the `sys.exit(1)` of the external-file
branch (line 239), and an uncaught exception (`ZeroDivisionError` from
`dtt` when `number_of_slices` is 0, `IndexError` from
`slice_pattern[3]`). -/
inductive SliceResult where
  | ok (offsets : List ℚ)
  | mismatchError
  | parseError
  | exit1
  | err
deriving DecidableEq, Repr

/-- One `for i in ...: slice_offsets[i] = tt; tt += dtt` loop (lines
192-201): assigns the running offset `tt` at each listed index in turn,
returning the updated list together with the final `tt`. -/
def fillSeq : List ℕ → List ℚ → ℚ → ℚ → List ℚ × ℚ
  | [], offs, tt, _ => (offs, tt)
  | i :: rest, offs, tt, dtt => fillSeq rest (offs.set i tt) (tt + dtt) dtt

/-- The tail of `getSliceOffsets` (lines 241-251): reverse the offsets
when `slice_pattern[3] == "-"` and no slice file was used; reading
`slice_pattern[3]` past the end of the pattern raises IndexError. -/
def afterFill (pattern : List Char) (offs : List ℚ)
    (sliceFileList : List ℚ) : SliceResult :=
  match pattern.get? 3 with
  | none => SliceResult.err
  | some c =>
      if c = '-' ∧ sliceFileList = [] then SliceResult.ok offs.reverse
      else SliceResult.ok offs

/-- `getSliceOffsets` (lines 140-251).  `sliceOffsetIsStr` is
`type(slice_offset) == str`; `customParsed` is the custom string parsed
by `eval`/`split` (`none` when both parses fail, lines 207-216);
`fileContents` are the floats read from the external slice-timing file
(the file branch is modelled only for a successful read).  `range(0,N,2)`
is `range' 0 ((N+1)/2) 2`, `range(1,N,2)` is `range' 1 (N/2) 2`; the
`[0]*N` initialisation (lines 184-186) is unconditional here because its
guard can only skip it in the custom/file branches, where the list is
either overwritten or unused. -/
def getSliceOffsets (pattern : List Char) (numberOfSlices : ℕ)
    (volumeTr : ℚ) (sliceOffsetIsStr : Bool)
    (customParsed : Option (List ℚ)) (fileContents : List ℚ) :
    SliceResult :=
  if numberOfSlices = 0 then SliceResult.err
  else
    let dtt := volumeTr / (numberOfSlices : ℚ)
    let init := List.replicate numberOfSlices (0 : ℚ)
    if pattern.take 3 = ['a', 'l', 't'] then
      let r1 := fillSeq (List.range' 0 ((numberOfSlices + 1) / 2) 2)
        init 0 dtt
      let r2 := fillSeq (List.range' 1 (numberOfSlices / 2) 2) r1.1 r1.2 dtt
      afterFill pattern r2.1 []
    else if pattern.take 3 = ['s', 'e', 'q'] then
      let r := fillSeq (List.range' 0 numberOfSlices 1) init 0 dtt
      afterFill pattern r.1 []
    else if (pattern = ['C', 'u', 's', 't', 'o', 'm'] ∨
        pattern = ['c', 'u', 's', 't', 'o', 'm']) ∧ sliceOffsetIsStr then
      match customParsed with
      | none => SliceResult.parseError
      | some offlist =>
          if offlist.length ≠ numberOfSlices then SliceResult.mismatchError
          else afterFill pattern offlist []
    else
      if fileContents.length ≠ numberOfSlices then SliceResult.exit1
      else afterFill pattern fileContents fileContents

/-- Spec-worded companion for C6: the `alt+z` offsets are the evenly
spaced values `k·dtt` handed out first to the even slice indices in
increasing order and then to the odd ones. -/
def altzOffsetsClaim (N : ℕ) (dtt : ℚ) : List ℚ :=
  (List.range N).map (fun (i : ℕ) =>
    if i % 2 = 0 then ((i / 2 : ℕ) : ℚ) * dtt
    else (((N + 1) / 2 + i / 2 : ℕ) : ℚ) * dtt)

lemma not_mem_range'_of_lt (s c step x : ℕ) (hx : x < s) :
    x ∉ List.range' s c step := by
  intro hmem
  rw [List.mem_range'] at hmem
  obtain ⟨i, hi, rfl⟩ := hmem
  omega

lemma fillSeq_fst_length (idxs : List ℕ) (offs : List ℚ) (tt dtt : ℚ) :
    (fillSeq idxs offs tt dtt).1.length = offs.length := by
  induction idxs generalizing offs tt with
  | nil => rfl
  | cons i rest ih => simp only [fillSeq]; rw [ih, List.length_set]

lemma fillSeq_snd (idxs : List ℕ) (offs : List ℚ) (tt dtt : ℚ) :
    (fillSeq idxs offs tt dtt).2 = tt + (idxs.length : ℚ) * dtt := by
  induction idxs generalizing offs tt with
  | nil => simp [fillSeq]
  | cons i rest ih =>
      simp only [fillSeq, List.length_cons]
      rw [ih]
      push_cast
      ring

lemma fillSeq_range' (s c step : ℕ) (hstep : 0 < step) (offs : List ℚ)
    (tt dtt : ℚ) (j : ℕ)
    (hlt : ∀ i ∈ List.range' s c step, i < offs.length) :
    (fillSeq (List.range' s c step) offs tt dtt).1.get? j =
      if j ∈ List.range' s c step
      then some (tt + (((j - s) / step : ℕ) : ℚ) * dtt)
      else offs.get? j := by
  induction c generalizing s offs tt with
  | zero => simp [fillSeq, List.range']
  | succ c ih =>
      rw [List.range'_succ] at hlt ⊢
      simp only [fillSeq]
      rw [ih (s + step) (offs.set s tt) (tt + dtt) (fun i hi => by
        rw [List.length_set]
        exact hlt i (List.mem_cons_of_mem _ hi))]
      by_cases hjs : j = s
      · subst hjs
        rw [if_neg (not_mem_range'_of_lt (j + step) c step j (by omega)),
          if_pos (List.mem_cons_self _ _),
          List.get?_set_eq_of_lt tt (hlt j (List.mem_cons_self _ _))]
        simp
      · by_cases hjm : j ∈ List.range' (s + step) c step
        · rw [if_pos hjm, if_pos (List.mem_cons_of_mem _ hjm)]
          obtain ⟨i, hi, rfl⟩ := List.mem_range'.mp hjm
          have h1 : s + step + step * i - (s + step) = step * i := by omega
          have h2 : s + step + step * i - s = step * (i + 1) := by
            have : s + step + step * i - s = step + step * i := by omega
            rw [this]; ring
          rw [h1, h2, Nat.mul_div_cancel_left _ hstep,
            Nat.mul_div_cancel_left _ hstep]
          push_cast
          ring_nf
        · rw [if_neg hjm,
            if_neg (by rw [List.mem_cons]; push_neg; exact ⟨hjs, hjm⟩),
            List.get?_set_ne _ _ (fun h => hjs h.symm)]

lemma fillSeq_seq_eval (N : ℕ) (dtt : ℚ) :
    (fillSeq (List.range' 0 N 1) (List.replicate N (0 : ℚ)) 0 dtt).1 =
      (List.range N).map (fun (k : ℕ) => (k : ℚ) * dtt) := by
  apply List.ext_get?
  intro j
  by_cases hj : j < N
  · rw [fillSeq_range' 0 N 1 (by omega) _ _ _ _ (fun i hi => by
      rw [List.length_replicate]
      rw [List.mem_range'] at hi
      omega)]
    rw [if_pos (by rw [List.mem_range']; exact ⟨j, hj, by omega⟩)]
    rw [List.get?_map, List.get?_range hj]
    norm_num
  · rw [List.get?_eq_none.mpr (by
      rw [fillSeq_fst_length, List.length_replicate]; omega),
      List.get?_eq_none.mpr (by rw [List.length_map, List.length_range]; omega)]

lemma fillSeq_alt_eval (N : ℕ) (dtt : ℚ) :
    (fillSeq (List.range' 1 (N / 2) 2)
        (fillSeq (List.range' 0 ((N + 1) / 2) 2)
          (List.replicate N (0 : ℚ)) 0 dtt).1
        (fillSeq (List.range' 0 ((N + 1) / 2) 2)
          (List.replicate N (0 : ℚ)) 0 dtt).2 dtt).1 =
      altzOffsetsClaim N dtt := by
  have hlen1 : (fillSeq (List.range' 0 ((N + 1) / 2) 2)
      (List.replicate N (0 : ℚ)) 0 dtt).1.length = N := by
    rw [fillSeq_fst_length, List.length_replicate]
  apply List.ext_get?
  intro j
  by_cases hj : j < N
  · rw [fillSeq_range' 1 (N / 2) 2 (by omega) _ _ _ _ (fun i hi => by
      rw [hlen1]
      rw [List.mem_range'] at hi
      omega)]
    rw [altzOffsetsClaim, List.get?_map, List.get?_range hj]
    simp only [Option.map_some']
    by_cases hpar : j % 2 = 0
    · rw [if_neg (by
        intro hmem
        rw [List.mem_range'] at hmem
        obtain ⟨i, hi, rfl⟩ := hmem
        omega)]
      rw [fillSeq_range' 0 ((N + 1) / 2) 2 (by omega) _ _ _ _ (fun i hi => by
        rw [List.length_replicate]
        rw [List.mem_range'] at hi
        omega)]
      rw [if_pos (by rw [List.mem_range']; exact ⟨j / 2, by omega, by omega⟩)]
      rw [if_pos hpar]
      norm_num
    · rw [if_pos (by rw [List.mem_range']; exact ⟨j / 2, by omega, by omega⟩)]
      rw [if_neg hpar]
      rw [fillSeq_snd, List.length_range']
      have h12 : (j - 1) / 2 = j / 2 := by omega
      rw [h12]
      push_cast
      ring_nf
  · rw [List.get?_eq_none.mpr (by rw [fillSeq_fst_length, hlen1]; omega),
      List.get?_eq_none.mpr (by
        rw [altzOffsetsClaim, List.length_map, List.length_range]; omega)]

set_option maxHeartbeats 1000000 in
/-- C6.  With `N ≥ 1` slices and TR `T > 0`: `seq+z` yields the `N`
evenly spaced offsets `0, T/N, …, (N−1)·T/N`, each in `[0, T)`; `alt+z`
hands the same offsets first to the even slice indices, then to the odd
ones; and each pattern with a trailing `-` (`seq-z`, `alt-z`) yields
exactly the reverse of the corresponding `+` pattern's list. -/
theorem c6_getSliceOffsets (N : ℕ) (T : ℚ) (hN : 1 ≤ N) (hT : 0 < T) :
    getSliceOffsets ['s', 'e', 'q', '+', 'z'] N T false none [] =
      SliceResult.ok
        ((List.range N).map (fun (k : ℕ) => (k : ℚ) * (T / (N : ℚ)))) ∧
    (∀ x ∈ (List.range N).map (fun (k : ℕ) => (k : ℚ) * (T / (N : ℚ))),
      0 ≤ x ∧ x < T) ∧
    getSliceOffsets ['a', 'l', 't', '+', 'z'] N T false none [] =
      SliceResult.ok (altzOffsetsClaim N (T / (N : ℚ))) ∧
    getSliceOffsets ['s', 'e', 'q', '-', 'z'] N T false none [] =
      SliceResult.ok
        (((List.range N).map
          (fun (k : ℕ) => (k : ℚ) * (T / (N : ℚ)))).reverse) ∧
    getSliceOffsets ['a', 'l', 't', '-', 'z'] N T false none [] =
      SliceResult.ok ((altzOffsetsClaim N (T / (N : ℚ))).reverse) := by
  have hN0 : ¬ N = 0 := by omega
  refine ⟨?_, ?_, ?_, ?_, ?_⟩
  · simp only [getSliceOffsets, if_neg hN0]
    rw [if_neg (show ¬ ((['s', 'e', 'q', '+', 'z'] : List Char).take 3 =
        ['a', 'l', 't']) by decide),
      if_pos (show (['s', 'e', 'q', '+', 'z'] : List Char).take 3 =
        ['s', 'e', 'q'] by decide)]
    rw [fillSeq_seq_eval]
    rfl
  · intro x hx
    rw [List.mem_map] at hx
    obtain ⟨k, hk, rfl⟩ := hx
    rw [List.mem_range] at hk
    have hNq : (0 : ℚ) < (N : ℚ) := by exact_mod_cast hN
    have hkq : (k : ℚ) < (N : ℚ) := by exact_mod_cast hk
    constructor
    · positivity
    · calc (k : ℚ) * (T / (N : ℚ)) < (N : ℚ) * (T / (N : ℚ)) :=
            mul_lt_mul_of_pos_right hkq (by positivity)
        _ = T := by field_simp
  · simp only [getSliceOffsets, if_neg hN0]
    rw [if_pos (show (['a', 'l', 't', '+', 'z'] : List Char).take 3 =
        ['a', 'l', 't'] by decide)]
    rw [fillSeq_alt_eval]
    rfl
  · simp only [getSliceOffsets, if_neg hN0]
    rw [if_neg (show ¬ ((['s', 'e', 'q', '-', 'z'] : List Char).take 3 =
        ['a', 'l', 't']) by decide),
      if_pos (show (['s', 'e', 'q', '-', 'z'] : List Char).take 3 =
        ['s', 'e', 'q'] by decide)]
    rw [fillSeq_seq_eval]
    rfl
  · simp only [getSliceOffsets, if_neg hN0]
    rw [if_pos (show (['a', 'l', 't', '-', 'z'] : List Char).take 3 =
        ['a', 'l', 't'] by decide)]
    rw [fillSeq_alt_eval]
    rfl

/-- C6, witness: the theorem applied at `N = 4`, `T = 2`. -/
theorem c6_getSliceOffsets_witness :
    1 ≤ 4 ∧ (0 : ℚ) < 2 ∧
    getSliceOffsets ['s', 'e', 'q', '+', 'z'] 4 2 false none [] =
      SliceResult.ok
        ((List.range 4).map (fun (k : ℕ) => (k : ℚ) * (2 / (4 : ℚ)))) :=
  ⟨by omega, by norm_num, (c6_getSliceOffsets 4 2 (by omega) (by norm_num)).1⟩

/-- The keys `retro_ts` stores in the `resp_info` dictionary it hands to
`getInputFileParameters` (retroicorLauren.py, lines 410-412). -/
def respInfoKeys : List String := ["resp_file", "phys_fs"]

/-- The keys of the `cardiac_info` dictionary (lines 413-415). -/
def cardiacInfoKeys : List String := ["phys_fs", "card_file"]

/-- The key `getInputFileParameters` reads from `respiration_info`
(lib_retroicor.py, line 1070 when a BIDS file is given, line 1138
otherwise): in either path this is the first subscript taken on the
dictionaries built by `retro_ts`. -/
def inputRespFileKey : String := "respiration_file"

/-- Observable outcome of a `retro_ts` run: whether the custom
slice-count mismatch was reported (lines 217-220 of `getSliceOffsets`),
the process status (`some k` for `return k` or an exit code, `none` for
an uncaught exception), and whether the NIML regressor file was written
(`ouputInNimlFormat`, line 472). -/
structure RetroOutcome where
  mismatchReported : Bool
  status : Option ℤ
  nimlWritten : Bool
deriving DecidableEq, Repr

/-- `retro_ts` (retroicorLauren.py, lines 254-493) up to its first
dictionary access through `getInputFileParameters` (line 420).
`physFsGiven` is the line-373 guard (`phys_fs` or `phys_json` supplied).
`getSliceOffsets` runs first (line 405) and its `None` results are
assigned without a check; `sys.exit(1)` and uncaught exceptions
propagate.  `getInputFileParameters` then subscripts `resp_info` with
`"respiration_file"` (a key `retro_ts` never stores, having used
`"resp_file"`), so the continuation `later` — the dashed-key parameter
dictionary, `getPhysiologicalNoiseComponents`, and the output writers —
is reached only if that lookup could succeed. -/
def retro_ts (physFsGiven : Bool) (pattern : List Char)
    (numberOfSlices : ℕ) (volumeTr : ℚ) (sliceOffsetIsStr : Bool)
    (customParsed : Option (List ℚ)) (fileContents : List ℚ)
    (later : Bool → RetroOutcome) : RetroOutcome :=
  if physFsGiven = false then ⟨false, some 1, false⟩
  else
    let sliceRes := getSliceOffsets pattern numberOfSlices volumeTr
      sliceOffsetIsStr customParsed fileContents
    let reported := decide (sliceRes = SliceResult.mismatchError)
    match sliceRes with
    | SliceResult.exit1 => ⟨reported, some 1, false⟩
    | SliceResult.err => ⟨reported, none, false⟩
    | _ =>
        if respInfoKeys.contains inputRespFileKey then later reported
        else ⟨reported, none, false⟩

lemma getSliceOffsets_custom_mismatch (N : ℕ) (T : ℚ)
    (offs fileContents : List ℚ) (hN : 1 ≤ N)
    (hlen : offs.length ≠ N) :
    getSliceOffsets ['c', 'u', 's', 't', 'o', 'm'] N T true (some offs)
      fileContents = SliceResult.mismatchError := by
  simp only [getSliceOffsets, if_neg (show ¬ N = 0 by omega)]
  rw [if_neg (show ¬ ((['c', 'u', 's', 't', 'o', 'm'] : List Char).take 3 =
      ['a', 'l', 't']) by decide),
    if_neg (show ¬ ((['c', 'u', 's', 't', 'o', 'm'] : List Char).take 3 =
      ['s', 'e', 'q']) by decide),
    if_pos (show ((['c', 'u', 's', 't', 'o', 'm'] : List Char) =
        ['C', 'u', 's', 't', 'o', 'm'] ∨ True) ∧ True
      from ⟨Or.inr trivial, trivial⟩)]
  rw [if_pos hlen]

set_option maxHeartbeats 1000000 in
/-- C7.  A run configured with slice pattern `custom` and a custom
offset list whose length differs from the declared slice count reports
the count mismatch, never finishes with the success status `0` (the
`getSliceOffsets` failure is ignored, but the very next step dies on the
`"respiration_file"` key that `retro_ts` never stored), and writes no
NIML output file — whatever code would follow the doomed lookup. -/
theorem c7_custom_mismatch (numberOfSlices : ℕ) (volumeTr : ℚ)
    (offs fileContents : List ℚ) (later : Bool → RetroOutcome)
    (hN : 1 ≤ numberOfSlices)
    (hlen : offs.length ≠ numberOfSlices) :
    (retro_ts true ['c', 'u', 's', 't', 'o', 'm'] numberOfSlices volumeTr
        true (some offs) fileContents later).mismatchReported = true ∧
    (retro_ts true ['c', 'u', 's', 't', 'o', 'm'] numberOfSlices volumeTr
        true (some offs) fileContents later).status ≠ some 0 ∧
    (retro_ts true ['c', 'u', 's', 't', 'o', 'm'] numberOfSlices volumeTr
        true (some offs) fileContents later).nimlWritten = false := by
  have h := getSliceOffsets_custom_mismatch numberOfSlices volumeTr offs
    fileContents hN hlen
  have hcont : respInfoKeys.contains inputRespFileKey = false := by decide
  have hr : retro_ts true ['c', 'u', 's', 't', 'o', 'm'] numberOfSlices
      volumeTr true (some offs) fileContents later =
      ⟨true, none, false⟩ := by
    rw [retro_ts, if_neg (show ¬ ((true : Bool) = false) by decide), h]
    show (if respInfoKeys.contains inputRespFileKey = true then
        later (decide (SliceResult.mismatchError = SliceResult.mismatchError))
      else ⟨decide (SliceResult.mismatchError = SliceResult.mismatchError),
        none, false⟩) = ⟨true, none, false⟩
    rw [hcont]
    rfl
  rw [hr]
  refine ⟨rfl, by simp, rfl⟩

/-- C7, witness: the theorem applied with 2 declared slices, a 1-entry
custom list, and an adversarial continuation that would report success
and write the file. -/
theorem c7_custom_mismatch_witness :
    (retro_ts true ['c', 'u', 's', 't', 'o', 'm'] 2 1 true (some [0]) []
        (fun _ => ⟨false, some 0, true⟩)).mismatchReported = true ∧
    (retro_ts true ['c', 'u', 's', 't', 'o', 'm'] 2 1 true (some [0]) []
        (fun _ => ⟨false, some 0, true⟩)).status ≠ some 0 ∧
    (retro_ts true ['c', 'u', 's', 't', 'o', 'm'] 2 1 true (some [0]) []
        (fun _ => ⟨false, some 0, true⟩)).nimlWritten = false :=
  c7_custom_mismatch 2 1 [0] [] (fun _ => ⟨false, some 0, true⟩)
    (by omega) (by norm_num)

/-- C1, counterexample.  The respiratory data `[1, 2, 1, 0, 1]` with
peaks `[1]` and troughs `[3]` is usable on its own: a respiratory-only
run succeeds and returns its phases.  Yet when the cardiac signal is
also requested and its peak list comes back empty, the combined run
returns the failure value (lines 806-808 `return []`) instead of the
claimed non-empty result that keeps the surviving respiratory
regressors. -/
theorem c1_counterexample :
    getPhysiologicalNoiseComponents false true [] [1, 2, 1, 0, 1]
        ([], 0) ([1], [3], 5) false 1 [] [] (fun _ _ => 0) (fun _ _ => 0)
        (fun _ _ => 0) (fun _ _ => 0) =
      some ⟨[1, -1, 0, 0, 1/2], []⟩ ∧
    getPhysiologicalNoiseComponents true true [1, 1, 1] [1, 2, 1, 0, 1]
        ([], 3) ([1], [3], 5) false 1 [] [] (fun _ _ => 0) (fun _ _ => 0)
        (fun _ _ => 0) (fun _ _ => 0) = none := by
  have hdf : dfSection 1 [1, -1, 0, 0, 1/2] [] =
      some ⟨[1, -1, 0, 0, 1/2], []⟩ := by
    rw [dfSection]
    rw [if_neg (by norm_num), if_neg (by norm_num)]
    norm_num
  constructor
  · rw [getPhysiologicalNoiseComponents]
    norm_num [Option.bind_eq_bind, respExample_eval, hdf]
  · rw [getPhysiologicalNoiseComponents]
    norm_num [Option.bind_eq_bind]

/-- C1, amended.  Failure is not recoverable at the signal-type
granularity: whenever *any* requested signal type has an empty peak
list, `getPhysiologicalNoiseComponents` returns the failure value
outright, regardless of the other signal's data. -/
theorem c1_amended (cardRequested respRequested : Bool)
    (cardRaw respRaw : List ℚ) (cardPeaksRes : List ℕ × ℕ)
    (respPeaksRes : List ℕ × List ℕ × ℕ) (aby : Bool) (s : ℕ)
    (cardArr respArr : List ℚ) (cosC sinC : ℤ → PhaseVal → ℚ)
    (cosR sinR : ℤ → ℚ → ℚ) :
    (cardRequested = true → cardPeaksRes.1 = [] →
      getPhysiologicalNoiseComponents cardRequested respRequested cardRaw
        respRaw cardPeaksRes respPeaksRes aby s cardArr respArr
        cosC sinC cosR sinR = none) ∧
    (respRequested = true → respPeaksRes.1 = [] →
      getPhysiologicalNoiseComponents cardRequested respRequested cardRaw
        respRaw cardPeaksRes respPeaksRes aby s cardArr respArr
        cosC sinC cosR sinR = none) := by
  constructor
  · intro hcr hcp
    subst hcr
    rw [getPhysiologicalNoiseComponents]
    simp [hcp]
  · intro hrr hrp
    subst hrr
    rw [getPhysiologicalNoiseComponents]
    rcases hcp : (if cardRequested = true then
        (if cardRaw.length = 0 then none
         else if cardPeaksRes.1.length = 0 then none
         else determineCardiacPhases cardPeaksRes.1 cardPeaksRes.2)
      else some []) with _ | cph
    · simp [Option.bind_eq_bind, hcp]
    · simp [Option.bind_eq_bind, hcp, hrp]

/-- C1, witness for the amended theorem: a cardiac-only run with an
empty cardiac peak list, and a respiratory-only run with an empty
respiratory peak list, both fail. -/
theorem c1_amended_witness :
    getPhysiologicalNoiseComponents true false [1] [] ([], 1) ([], [], 0)
        false 1 [] [] (fun _ _ => 0) (fun _ _ => 0) (fun _ _ => 0)
        (fun _ _ => 0) = none ∧
    getPhysiologicalNoiseComponents false true [] [1] ([], 1) ([], [], 0)
        false 1 [] [] (fun _ _ => 0) (fun _ _ => 0) (fun _ _ => 0)
        (fun _ _ => 0) = none :=
  ⟨(c1_amended true false [1] [] ([], 1) ([], [], 0) false 1 [] []
      (fun _ _ => 0) (fun _ _ => 0) (fun _ _ => 0) (fun _ _ => 0)).1
      rfl rfl,
   (c1_amended false true [] [1] ([], 1) ([], [], 0) false 1 [] []
      (fun _ _ => 0) (fun _ _ => 0) (fun _ _ => 0) (fun _ _ => 0)).2
      rfl rfl⟩

end Retroicor
